import Mathlib

/-!
Shallow embedding of `src/river/tree/hoeffding_tree_classifier.py`
(class `HoeffdingTreeClassifier`).

The file under `src/` contains the tree engine: `__init__` with the two
soft-correcting property setters, `_new_learning_node`, `_attempt_to_split`,
`learn_one` and `predict_proba_one`.  Collaborators that live in other
modules of the repository (the `_nodes` hierarchy, `_split_criterion`,
`BaseHoeffdingTree`, `river.utils.math.softmax`, the attribute observers and
the memory-management routines) are not in `src/`; where their behaviour is
needed it is modelled from the spec, and every such definition says so in
its doc comment.

Machine reals (Python floats) are modelled as rationals; class labels,
feature identifiers and categorical feature values are modelled as natural
numbers; an example `x` is a total function from feature identifier to
value (the claims under study do not involve missing features).
-/

/-- Class-count statistics of a node: association list from class label to
observed weight.  Mirrors the Python `dict` (`self.stats`); insertion order
is preserved like a Python dict. -/
abbrev Stats := List (Nat × ℚ)

/-- An example: total assignment of a value to every feature identifier. -/
abbrev Ex := Nat → Nat

/-- Total observed weight of a statistics dictionary
(`LearningNode.total_weight`, the sum of the per-class weights). -/
def totalWeight (s : Stats) : ℚ := (s.map Prod.snd).sum

/-- Add `w` to the weight recorded for class `y`
(`stats[y] = stats.get(y, 0) + w`): an existing key keeps its position, a
new key is appended, exactly like a Python dict update. -/
def statsAdd (s : Stats) (y : Nat) (w : ℚ) : Stats :=
  match s with
  | [] => [(y, w)]
  | (c, v) :: t => if c = y then (c, v + w) :: t else (c, v) :: statsAdd t y w

/-- Modelled from the spec: `LearningNode.observed_class_distribution_is_pure`
(the `_nodes` module is outside `src/`).  Spec 4.2 step 1: statistics are
pure when "a single class has all observed weight", i.e. fewer than two
classes carry nonzero weight. -/
def distributionIsPure (s : Stats) : Bool :=
  (s.filter (fun kv => decide (kv.2 ≠ 0))).length < 2

/-- Position of the first occurrence of `v`, the branch index a multi-way
nominal test assigns to a seen categorical value. -/
def idxOf? (v : Nat) : List Nat → Option Nat
  | [] => none
  | h :: t => if h = v then some 0 else (idxOf? v t).map (· + 1)

/-- Modelled from the spec: the three decision-rule shapes of a split test
(spec 3: "binary threshold, binary nominal-equality, or open-ended
multi-way nominal").  The concrete test classes live outside `src/`. -/
inductive SplitTest where
  /-- Numeric binary test: value ≤ pivot goes to branch 0, else branch 1. -/
  | numericBinary (attr : Nat) (pivot : Nat)
  /-- Nominal binary test: value = pivot goes to branch 0, else branch 1. -/
  | nominalBinary (attr : Nat) (pivot : Nat)
  /-- Multi-way nominal test: the branch index is the position of the value
  in the list of values seen so far; unseen values have no branch. -/
  | nominalMultiway (attr : Nat) (seen : List Nat)
  deriving Repr, DecidableEq

namespace SplitTest

/-- The single feature a test depends on
(`split_test.attrs_test_depends_on()[0]`). -/
def attrOf : SplitTest → Nat
  | numericBinary a _ => a
  | nominalBinary a _ => a
  | nominalMultiway a _ => a

/-- `attrs_test_depends_on()`: every concrete test depends on one feature. -/
def attrsDependsOn (t : SplitTest) : List Nat := [t.attrOf]

/-- Modelled from the spec: branch selection (`instance_child_index`).
`none` stands for the Python convention of a negative index, which for a
multi-way test means "previously unseen categorical value" (spec 4.1 case
(b)).  Binary tests always route (examples are total here). -/
def route (t : SplitTest) (x : Ex) : Option Nat :=
  match t with
  | numericBinary a p => some (if x a ≤ p then 0 else 1)
  | nominalBinary a p => some (if x a = p then 0 else 1)
  | nominalMultiway a seen => idxOf? (x a) seen

/-- `max_branches() == -1` holds exactly for the open-ended multi-way test. -/
def isMultiway : SplitTest → Bool
  | nominalMultiway _ _ => true
  | _ => false

/-- `add_new_branch(value)`: append the new categorical value and return the
new branch index (only ever called on a multi-way test). -/
def addNewBranch : SplitTest → Nat → SplitTest × Nat
  | nominalMultiway a seen, v => (nominalMultiway a (seen ++ [v]), seen.length)
  | t, _ => (t, 0)

end SplitTest

/-- Data stored in a learning node (leaf). `disabledAttrs` records the
feature observers removed by `disable_attribute`. -/
structure LeafData where
  stats : Stats
  depth : Nat
  isActive : Bool
  lastSplitAttemptAt : ℚ
  disabledAttrs : List Nat
  deriving Repr, DecidableEq

/-- A fresh, empty, active learning node at the given depth
(`_new_learning_node`): empty statistics, so `last_split_attempt_at`
starts at its total weight 0. -/
def freshLeaf (depth : Nat) : LeafData :=
  { stats := [], depth := depth, isActive := true,
    lastSplitAttemptAt := 0, disabledAttrs := [] }

/-- Modelled from the spec: `LearningNode.learn_one` updates the per-class
statistics by the sample weight (spec 4.1 case (a): "feed it the example
(updates its per-class statistics and its Attribute Observers)"; the
attribute-observer updates carry no information used by the claims). -/
def leafLearnOne (ld : LeafData) (y : Nat) (w : ℚ) : LeafData :=
  { ld with stats := statsAdd ld.stats y w }

/-- `node.deactivate()`: flip the active flag; statistics are kept. -/
def deactivateLeaf (ld : LeafData) : LeafData := { ld with isActive := false }

/-- `node.disable_attribute(att)`: remove the observer of one feature. -/
def disableAttribute (ld : LeafData) (a : Nat) : LeafData :=
  if a ∈ ld.disabledAttrs then ld
  else { ld with disabledAttrs := ld.disabledAttrs ++ [a] }

/-- Data stored in a split (decision) node: the test, the class statistics
inherited from the leaf it replaced, and its depth. -/
structure SplitData where
  test : SplitTest
  stats : Stats
  depth : Nat
  deriving Repr, DecidableEq

mutual
/-- A node of the Hoeffding tree: a learning node (leaf) or a split node
with an indexed collection of children. -/
inductive HNode where
  | leaf (ld : LeafData)
  | split (sd : SplitData) (children : HChildren)
  deriving Repr

/-- The child slots of a split node, by branch index; a slot can be empty
(`consNone`), mirroring a branch index with no child attached. -/
inductive HChildren where
  | nil
  | consSome (c : HNode) (t : HChildren)
  | consNone (t : HChildren)
  deriving Repr
end

namespace HChildren

/-- `get_child(i)`. -/
def get? : HChildren → Nat → Option HNode
  | nil, _ => none
  | consSome c _, 0 => some c
  | consNone _, 0 => none
  | consSome _ t, n + 1 => t.get? n
  | consNone t, n + 1 => t.get? n

/-- `set_child(i, node)`: write slot `i`, creating empty slots as needed
(the Python side keys children by branch index). -/
def set : HChildren → Nat → HNode → HChildren
  | nil, 0, c => consSome c nil
  | nil, n + 1, c => consNone (set nil n c)
  | consSome _ t, 0, c => consSome c t
  | consNone t, 0, c => consSome c t
  | consSome d t, n + 1, c => consSome d (set t n c)
  | consNone t, n + 1, c => consNone (set t n c)

end HChildren

mutual
/-- Number of leaf nodes in a subtree. -/
def countLeavesN : HNode → Nat
  | .leaf _ => 1
  | .split _ cs => countLeavesC cs

/-- Number of leaf nodes below a collection of child slots. -/
def countLeavesC : HChildren → Nat
  | .nil => 0
  | .consSome c t => countLeavesN c + countLeavesC t
  | .consNone t => countLeavesC t
end

mutual
/-- Number of split (decision) nodes in a subtree. -/
def countSplitsN : HNode → Nat
  | .leaf _ => 0
  | .split _ cs => 1 + countSplitsC cs

/-- Number of split (decision) nodes below a collection of child slots. -/
def countSplitsC : HChildren → Nat
  | .nil => 0
  | .consSome c t => countSplitsN c + countSplitsC t
  | .consNone t => countSplitsC t
end

/-- Leaf count of an optional root (`None` root has no nodes). -/
def countLeavesO : Option HNode → Nat
  | none => 0
  | some t => countLeavesN t

/-- Split count of an optional root. -/
def countSplitsO : Option HNode → Nat
  | none => 0
  | some t => countSplitsN t

/-- Configuration of the classifier, as stored by `__init__` and the
`BaseHoeffdingTree` constructor.  `maxDepth = ⊤` models the Python
`max_depth=None ↦ math.inf`. -/
structure Config where
  gracePeriod : Nat
  maxDepth : WithTop Nat
  splitCriterion : String
  splitConfidence : ℚ
  tieThreshold : ℚ
  leafPrediction : String
  nbThreshold : Nat
  attributeObserver : String
  removePoorAttrs : Bool
  memoryEstimatePeriod : Nat
  growthAllowed : Bool
  deriving Repr

/-- The mutable model state of one classifier instance. -/
structure Model where
  cfg : Config
  root : Option HNode
  nActiveLeaves : ℤ
  nInactiveLeaves : ℤ
  nDecisionNodes : ℤ
  weightSeen : ℚ
  classes : List Nat
  deriving Repr

/-- A split suggestion handed back by a leaf
(`AttributeSplitSuggestion`): candidate test (`none` is the null,
do-not-split suggestion), per-branch resulting statistics, and merit. -/
structure SplitSuggestion where
  merit : ℚ
  splitTest : Option SplitTest
  resultingStats : List Stats
  deriving Repr

/-- `num_splits()`: number of branches the suggestion would create. -/
def SplitSuggestion.numSplits (s : SplitSuggestion) : Nat := s.resultingStats.length

/-- One `learn_one(x, y, sample_weight)` call together with the data that
external collaborators (outside `src/`) would supply during it: the ranked
split suggestions a leaf would return from its attribute observers, and the
value of the Hoeffding bound `_hoeffding_bound(R, δ, n)` computed in the
base class.  Quantifying over these inputs quantifies over every possible
behaviour of the excluded collaborators. -/
structure StepInput where
  x : Ex
  y : Nat
  weight : ℚ
  suggestions : List SplitSuggestion
  hb : ℚ

/-- Observable calls the engine makes while handling one example. -/
inductive Event where
  /-- `_attempt_to_split` was entered for the reached leaf. -/
  | splitAttempt
  /-- `_enforce_size_limit()` was invoked (end of a deciding split attempt). -/
  | enforceSize
  /-- A leaf at the depth cap was deactivated. -/
  | deactivateCap
  /-- `add_new_branch` appended branch `i` to a multi-way split node. -/
  | newBranch (i : Nat)
  deriving Repr, BEq, DecidableEq

/-- Result of `_attempt_to_split` on a leaf: the node that now stands where
the leaf stood, the counter deltas applied to the tree's bookkeeping, the
value of the local `should_split` variable, and the collaborator calls
made. -/
structure AttemptRes where
  node : HNode
  dAct : ℤ
  dInact : ℤ
  dDec : ℤ
  didSplit : Bool
  events : List Event
  deriving Repr

/-- Insert a suggestion after every strictly smaller merit: the insertion
step of a stable ascending sort. -/
def insertByMerit (s : SplitSuggestion) : List SplitSuggestion → List SplitSuggestion
  | [] => [s]
  | h :: t => if h.merit < s.merit then h :: insertByMerit s t else s :: h :: t

/-- `best_split_suggestions.sort(key=attrgetter('merit'))`: Python's stable
ascending sort by merit, as a stable insertion sort. -/
def sortSuggs : List SplitSuggestion → List SplitSuggestion
  | [] => []
  | s :: rest => insertByMerit s (sortSuggs rest)

/-- The poor-attribute collection loop of `_attempt_to_split` (lines
249-256).  The Python guard `best_split_suggestions[i] is not None` is
always true (the list holds suggestion objects), after which
`.split_test.attrs_test_depends_on()` is evaluated unconditionally: on the
null suggestion (`split_test is None`) this raises `AttributeError`,
modelled as `none`. -/
def collectPoor (best : SplitSuggestion) (hb : ℚ) :
    List SplitSuggestion → Option (List Nat)
  | [] => some []
  | s :: rest =>
    match s.splitTest with
    | none => none
    | some t =>
      (collectPoor best hb rest).map fun acc =>
        if t.attrsDependsOn.length = 1 ∧ best.merit - s.merit > hb then
          if t.attrOf ∈ acc then acc else t.attrOf :: acc
        else acc

/-- `disable_attribute` over a collected set of poor features. -/
def disableAll (ld : LeafData) (atts : List Nat) : LeafData :=
  atts.foldl disableAttribute ld

/-- Children created by a split execution: one fresh active leaf per branch,
seeded with that branch's resulting statistics
(`_new_learning_node(split_decision.resulting_stats_from_split(i),
parent=new_split)`), at depth one below the new split node. -/
def buildChildren (depth : Nat) : List Stats → HChildren
  | [] => .nil
  | s :: rest =>
    .consSome (.leaf { stats := s, depth := depth + 1, isActive := true,
                       lastSplitAttemptAt := totalWeight s, disabledAttrs := [] })
      (buildChildren depth rest)

/-- The `if should_split:` tail of `_attempt_to_split` (lines 259-283):
pre-prune (null test wins) deactivates the leaf in place; a real winning
test replaces the leaf by a split node with fresh children; both paths end
with `self._enforce_size_limit()`.  Indexing an empty list (`[-1]`) would
raise, modelled as `none` (unreachable: `should_split` needs a nonempty
list). -/
def mkDecision (ld : LeafData) (sorted : List SplitSuggestion)
    (shouldSplit : Bool) : Option AttemptRes :=
  if shouldSplit then
    match sorted.getLast? with
    | none => none
    | some best =>
      match best.splitTest with
      | none =>
        some { node := .leaf (deactivateLeaf ld), dAct := -1, dInact := 1,
               dDec := 0, didSplit := true, events := [.enforceSize] }
      | some t =>
        some { node := .split { test := t, stats := ld.stats, depth := ld.depth }
                 (buildChildren ld.depth best.resultingStats),
               dAct := (best.resultingStats.length : ℤ) - 1, dInact := 0,
               dDec := 1, didSplit := true, events := [.enforceSize] }
  else
    some { node := .leaf ld, dAct := 0, dInact := 0, dDec := 0,
           didSplit := false, events := [] }

/-- The body of `_attempt_to_split` after the purity guard, acting on the
already sorted suggestion list (lines 234-283): fewer than two candidates
split exactly when one exists; otherwise the Hoeffding-bound comparison and
tie threshold decide, with the optional poor-attribute disabling loop run
first (lines 246-258) whose `AttributeError` on a null suggestion is
`none`. -/
def attemptBody (cfg : Config) (ld : LeafData)
    (sorted : List SplitSuggestion) (hb : ℚ) : Option AttemptRes :=
  if sorted.length < 2 then
    mkDecision ld sorted (decide (0 < sorted.length))
  else
    match sorted.getLast?, sorted.dropLast.getLast? with
    | some best, some second =>
      if cfg.removePoorAttrs then
        match collectPoor best hb sorted with
        | none => none
        | some poor =>
          mkDecision (disableAll ld poor) sorted
            (decide (best.merit - second.merit > hb) ||
              decide (hb < cfg.tieThreshold))
      else
        mkDecision ld sorted
          (decide (best.merit - second.merit > hb) ||
            decide (hb < cfg.tieThreshold))
    | _, _ => none

/-- `_attempt_to_split(node, parent, parent_idx)` (lines 201-283), acting on
the leaf's data; the structural replacement at the parent is performed by
the caller's rebuild.  The split criterion chosen on lines 225-232 only
feeds the external merit and bound computations, which enter through the
supplied suggestions and Hoeffding bound `hb`. -/
def attemptToSplit (cfg : Config) (ld : LeafData)
    (suggs : List SplitSuggestion) (hb : ℚ) : Option AttemptRes :=
  if distributionIsPure ld.stats then
    some { node := .leaf ld, dAct := 0, dInact := 0, dDec := 0,
           didSplit := false, events := [] }
  else
    attemptBody cfg ld (sortSuggs suggs) hb

/-- Result of the per-example work on the subtree that was routed into:
the rebuilt subtree, counter deltas, and events. -/
structure NodeRes where
  node : HNode
  dAct : ℤ
  dInact : ℤ
  dDec : ℤ
  events : List Event
  deriving Repr

/-- Line 342: `leaf_node.last_split_attempt_at = weight_seen` after a split
attempt.  The assignment hits the leaf object, so it is visible only when a
leaf still stands at the position; a freshly created split node is a
different object. -/
def lsaReset (n : HNode) (w : ℚ) : HNode :=
  match n with
  | .leaf ld => .leaf { ld with lastSplitAttemptAt := w }
  | n => n

/-- Lines 329-342 of `learn_one`: train the reached leaf, then, when growth
is allowed and the leaf is active, either deactivate it at the depth cap or
run a split attempt once the grace period has elapsed, resetting
`last_split_attempt_at` afterwards. -/
def processLeaf (cfg : Config) (st : StepInput) (ld : LeafData) :
    Option NodeRes :=
  let ld1 := leafLearnOne ld st.y st.weight
  if cfg.growthAllowed ∧ ld1.isActive then
    if cfg.maxDepth ≤ (ld1.depth : WithTop Nat) then
      some { node := .leaf (deactivateLeaf ld1), dAct := -1, dInact := 1,
             dDec := 0, events := [.deactivateCap] }
    else
      let weightSeen := totalWeight ld1.stats
      if weightSeen - ld1.lastSplitAttemptAt ≥ (cfg.gracePeriod : ℚ) then
        (attemptToSplit cfg ld1 st.suggestions st.hb).map fun r =>
          { node := lsaReset r.node weightSeen,
            dAct := r.dAct, dInact := r.dInact, dDec := r.dDec,
            events := .splitAttempt :: r.events }
      else
        some { node := .leaf ld1, dAct := 0, dInact := 0, dDec := 0, events := [] }
  else
    some { node := .leaf ld1, dAct := 0, dInact := 0, dDec := 0, events := [] }

mutual
/-- The routing-and-update walk of `learn_one`
(`filter_instance_to_leaf` followed by lines 323-353), rebuilding the
subtree functionally.  At a split node the test routes the example: a
matching branch descends; a multi-way test with no branch for the value is
spec 4.1 case (b) (append a branch, create a fresh leaf, train only it);
a matching branch index whose slot is empty creates a fresh leaf there
(lines 324-327) which is then processed as the reached leaf. -/
def learnNode (cfg : Config) (st : StepInput) : HNode → Option NodeRes
  | .leaf ld => processLeaf cfg st ld
  | .split sd cs =>
    match sd.test.route st.x with
    | none =>
      -- previously unseen categorical value at a multi-way test
      let p := sd.test.addNewBranch (st.x sd.test.attrOf)
      let nl := leafLearnOne (freshLeaf (sd.depth + 1)) st.y st.weight
      some { node := .split { sd with test := p.1 } (cs.set p.2 (.leaf nl)),
             dAct := 1, dInact := 0, dDec := 0, events := [.newBranch p.2] }
    | some idx =>
      (learnChildAt cfg st (sd.depth + 1) cs idx).map fun r =>
        { node := .split sd r.1, dAct := r.2.dAct, dInact := r.2.dInact,
          dDec := r.2.dDec, events := r.2.events }

/-- Walk into child slot `i`: descend when a child is present; create and
process a fresh leaf (at `childDepth`) when the slot is empty or beyond the
current slots. -/
def learnChildAt (cfg : Config) (st : StepInput) (childDepth : Nat) :
    HChildren → Nat → Option (HChildren × NodeRes)
  | .nil, i =>
    (processLeaf cfg st (freshLeaf childDepth)).map fun r =>
      (HChildren.nil.set i r.node,
       { r with dAct := r.dAct + 1 })
  | .consSome c t, 0 =>
    (learnNode cfg st c).map fun r => (.consSome r.node t, r)
  | .consNone t, 0 =>
    (processLeaf cfg st (freshLeaf childDepth)).map fun r =>
      (.consSome r.node t, { r with dAct := r.dAct + 1 })
  | .consSome c t, i + 1 =>
    (learnChildAt cfg st childDepth t i).map fun r => (.consSome c r.1, r.2)
  | .consNone t, i + 1 =>
    (learnChildAt cfg st childDepth t i).map fun r => (.consNone r.1, r.2)
end

/-- Python float modulo: `a % b = a - b * floor(a / b)` (for the positive
moduli used here). -/
def ratMod (a b : ℚ) : ℚ := a - b * (⌊a / b⌋ : ℤ)

/-- `y ∈ classes` set insertion (`self.classes.add(y)`). -/
def insertClass (l : List Nat) (y : Nat) : List Nat :=
  if y ∈ l then l else l ++ [y]

/-- `learn_one(x, y, sample_weight)` (lines 285-358).  Returns the new
model, the events of the walk, and whether the periodic
`_estimate_model_size()` call fired at the end (`_train_weight_seen_by_model
% memory_estimate_period == 0`).  `none` models an uncaught Python
exception during the call. -/
def learnOne (m : Model) (st : StepInput) :
    Option (Model × List Event × Bool) :=
  let classes1 := insertClass m.classes st.y
  let w1 := m.weightSeen + st.weight
  let p : HNode × ℤ :=
    match m.root with
    | none => (.leaf (freshLeaf 0), 1)
    | some t => (t, m.nActiveLeaves)
  (learnNode m.cfg st p.1).map fun r =>
    ({ m with root := some r.node,
              classes := classes1,
              weightSeen := w1,
              nActiveLeaves := p.2 + r.dAct,
              nInactiveLeaves := m.nInactiveLeaves + r.dInact,
              nDecisionNodes := m.nDecisionNodes + r.dDec },
     r.events,
     decide (ratMod w1 (m.cfg.memoryEstimatePeriod : ℚ) = 0))

/-- A fresh model as `__init__` leaves it: no root, zero counters, no
observed classes. -/
def initModel (cfg : Config) : Model :=
  { cfg := cfg, root := none, nActiveLeaves := 0, nInactiveLeaves := 0,
    nDecisionNodes := 0, weightSeen := 0, classes := [] }

/-- Sequential training on a stream of examples. -/
def learnSeq (m : Model) : List StepInput → Option Model
  | [] => some m
  | st :: rest =>
    match learnOne m st with
    | none => none
    | some (m1, _, _) => learnSeq m1 rest

mutual
/-- The node that `predict_proba_one` draws its prediction from (lines
363-367): route as in learning; a reached leaf is used directly; when a
multi-way test has no branch, or the routed slot is empty,
`filter_instance_to_leaf` surfaces the split node itself (as node or as
`found_node.parent`), whose aggregate statistics are then used. -/
def predSource (x : Ex) : HNode → LeafData ⊕ Stats
  | .leaf ld => .inl ld
  | .split sd cs =>
    match sd.test.route x with
    | none => .inr sd.stats
    | some idx => predSourceC x sd.stats cs idx

/-- Helper of `predSource`: look into slot `idx`, falling back to the
owning split node's statistics when the slot is empty. -/
def predSourceC (x : Ex) (fallback : Stats) : HChildren → Nat → LeafData ⊕ Stats
  | .nil, _ => .inr fallback
  | .consSome c _, 0 => predSource x c
  | .consNone _, 0 => .inr fallback
  | .consSome _ t, i + 1 => predSourceC x fallback t i
  | .consNone t, i + 1 => predSourceC x fallback t i
end

/-- Largest value of a list of rationals (Python `max(values)`; 0 is never
used: callers guard against the empty list). -/
def listMax : List ℚ → ℚ
  | [] => 0
  | h :: t => t.foldl max h

/-- Modelled from the spec: `river.utils.math.softmax`, the "numerically
stable softmax-style transform" of spec 4.3 step 4 (the `river.utils`
module is outside `src/`).  The stable softmax shifts by the maximum,
exponentiates and divides by the total; the real exponential is not a
rational function, so it enters as the parameter `e`, about which theorems
assume only what any exponential satisfies (strict positivity).  The empty
dictionary is returned unchanged. -/
def softmaxD (e : ℚ → ℚ) (d : Stats) : Stats :=
  if d.isEmpty then d
  else
    let mx := listMax (d.map Prod.snd)
    let ex := d.map fun kv => (kv.1, e (kv.2 - mx))
    let total := (ex.map Prod.snd).sum
    ex.map fun kv => (kv.1, kv.2 / total)

/-- Python `dict.update`: overwrite existing keys, append new ones. -/
def dictSet (d : Stats) (k : Nat) (v : ℚ) : Stats :=
  match d with
  | [] => [(k, v)]
  | (c, w) :: t => if c = k then (c, v) :: t else (c, w) :: dictSet t k v

/-- `proba.update(pred)`. -/
def dictUpdate (d : Stats) (p : Stats) : Stats :=
  p.foldl (fun acc kv => dictSet acc kv.1 kv.2) d

/-- Modelled from the spec: the leaf-prediction strategy contract of spec
4.4 (the strategies live in `_nodes`, outside `src/`).  A strategy turns a
leaf's state (and the example) into a predicted distribution; theorems
quantify over it, and witnesses instantiate it with the majority-class
strategy `predMC`. -/
abbrev PredStrategy := LeafData → Ex → Stats

/-- Modelled from the spec: the majority-class strategy, "returns the
empirical class-frequency distribution" (spec 4.4). -/
def predMC : PredStrategy := fun ld _ =>
  let tw := totalWeight ld.stats
  ld.stats.map fun kv => (kv.1, kv.2 / tw)

/-- `predict_proba_one(x)` (lines 360-370): start from a zero distribution
over every class observed so far; without a root return it as is; otherwise
route, take the reached leaf's strategy prediction (or the fallback split
node's raw statistics), merge, and apply the softmax transform. -/
def predictProbaOne (e : ℚ → ℚ) (pf : PredStrategy) (m : Model) (x : Ex) :
    Stats :=
  let proba : Stats := m.classes.map fun c => (c, (0 : ℚ))
  match m.root with
  | none => proba
  | some t =>
    let pred :=
      match predSource x t with
      | .inl ld => pf ld x
      | .inr s => s
    softmaxD e (dictUpdate proba pred)

/-- The valid attribute-observer kinds (`_VALID_AO`). -/
def validAOs : List String := ["bst", "gaussian", "histogram"]

/-- The recognized split criteria. -/
def validSplitCriteria : List String := ["gini", "info_gain", "hellinger"]

/-- The recognized leaf-prediction strategies. -/
def validLeafPredictions : List String := ["mc", "nb", "nba"]

/-- Diagnostics printed by the soft-correcting property setters. -/
inductive Diag where
  | invalidSplitCriterion
  | invalidLeafPrediction
  deriving Repr, DecidableEq

/-- Hard construction failures. -/
inductive InitError where
  /-- `AttributeError` raised for an invalid `attribute_observer` (156-159). -/
  | invalidAttributeObserver
  deriving Repr, DecidableEq

/-- The `split_criterion` property setter (lines 167-174): an unrecognized
value prints a diagnostic and falls back to `'info_gain'`. -/
def setSplitCriterion (s : String) : String × List Diag :=
  if s ∈ validSplitCriteria then (s, []) else ("info_gain", [.invalidSplitCriterion])

/-- The `leaf_prediction` property setter (lines 176-184): an unrecognized
value prints a diagnostic and falls back to `'nba'`. -/
def setLeafPrediction (s : String) : String × List Diag :=
  if s ∈ validLeafPredictions then (s, []) else ("nba", [.invalidLeafPrediction])

/-- `__init__` (lines 134-165): the two soft-correcting setters run first
(lines 149, 152), then the attribute-observer kind is validated and an
unrecognized kind raises `AttributeError` (lines 156-159).  Returns the
stored configuration together with the diagnostics printed on the way. -/
def initClassifier (gracePeriod : Nat) (maxDepth : WithTop Nat)
    (splitCriterion : String) (splitConfidence : ℚ) (tieThreshold : ℚ)
    (leafPrediction : String) (nbThreshold : Nat)
    (attributeObserver : String) (removePoorAttrs : Bool)
    (memoryEstimatePeriod : Nat) : Except InitError (Config × List Diag) :=
  let sc := setSplitCriterion splitCriterion
  let lp := setLeafPrediction leafPrediction
  if attributeObserver ∈ validAOs then
    .ok ({ gracePeriod := gracePeriod, maxDepth := maxDepth,
           splitCriterion := sc.1, splitConfidence := splitConfidence,
           tieThreshold := tieThreshold, leafPrediction := lp.1,
           nbThreshold := nbThreshold, attributeObserver := attributeObserver,
           removePoorAttrs := removePoorAttrs,
           memoryEstimatePeriod := memoryEstimatePeriod,
           growthAllowed := true },
         sc.2 ++ lp.2)
  else
    .error .invalidAttributeObserver

/-- Second-largest value of a list (largest after removing one copy of the
maximum), the "second-best candidate's merit" of spec 4.2 step 4. -/
def secondMax (l : List ℚ) : ℚ := listMax (l.erase (listMax l))

/-- The split-decision condition exactly as the claim states it (spec 4.2
step 4): split when fewer than two candidates exist and at least one does,
or — with the bound computed, which requires two candidates — the best
merit exceeds the second best by more than ε, or ε is below the tie
threshold τ. -/
def specShouldSplit (merits : List ℚ) (hb τ : ℚ) : Prop :=
  (merits.length < 2 ∧ 0 < merits.length) ∨
  (2 ≤ merits.length ∧ (listMax merits - secondMax merits > hb ∨ hb < τ))

instance (merits : List ℚ) (hb τ : ℚ) : Decidable (specShouldSplit merits hb τ) := by
  unfold specShouldSplit; infer_instance

/-- The structural counter invariant of spec 3: active plus inactive leaf
counters equal the number of leaf nodes in the tree, and the decision-node
counter equals the number of split nodes. -/
def counterInvariant (m : Model) : Prop :=
  m.nActiveLeaves + m.nInactiveLeaves = (countLeavesO m.root : ℤ) ∧
  m.nDecisionNodes = (countSplitsO m.root : ℤ)

/-- Outcome of routing an example down the tree, used to state claims about
"the leaf reached by `learn_one`". -/
inductive FindRes where
  /-- An existing leaf was reached. -/
  | foundLeaf (ld : LeafData)
  /-- A matching branch index led to an empty child slot. -/
  | missing
  /-- A multi-way test had no branch for the example's value. -/
  | unmatched
  deriving Repr, DecidableEq

mutual
/-- Pure mirror of `filter_instance_to_leaf`'s outcome. -/
def findLeaf (x : Ex) : HNode → FindRes
  | .leaf ld => .foundLeaf ld
  | .split sd cs =>
    match sd.test.route x with
    | none => .unmatched
    | some idx => findLeafC x cs idx

/-- Helper of `findLeaf`: look into slot `idx`. -/
def findLeafC (x : Ex) : HChildren → Nat → FindRes
  | .nil, _ => .missing
  | .consSome c _, 0 => findLeaf x c
  | .consNone _, 0 => .missing
  | .consSome _ t, i + 1 => findLeafC x t i
  | .consNone t, i + 1 => findLeafC x t i
end

/-- The relation claim C6 describes between the tree before and after an
example whose categorical value has no branch at a multi-way split node:
along the routing path everything is unchanged, and at the unmatched
multi-way node exactly one new branch keyed by the new value is appended,
whose child is one fresh active leaf trained on this example alone. -/
inductive BranchExtended (x : Ex) (y : Nat) (w : ℚ) : HNode → HNode → Prop
  | here (a : Nat) (seen : List Nat) (stats : Stats) (d : Nat)
      (cs : HChildren) (hnew : x a ∉ seen) :
      BranchExtended x y w
        (.split { test := .nominalMultiway a seen, stats := stats, depth := d } cs)
        (.split { test := .nominalMultiway a (seen ++ [x a]), stats := stats,
                  depth := d }
          (cs.set seen.length (.leaf (leafLearnOne (freshLeaf (d + 1)) y w))))
  | there (sd : SplitData) (cs : HChildren) (i : Nat) (c c' : HNode)
      (hroute : sd.test.route x = some i) (hget : cs.get? i = some c)
      (hrec : BranchExtended x y w c c') :
      BranchExtended x y w (.split sd cs) (.split sd (cs.set i c'))

section Helpers

/-- A sample configuration used by concrete witnesses. -/
def cfgSample : Config :=
  { gracePeriod := 2, maxDepth := ⊤, splitCriterion := "info_gain",
    splitConfidence := 1/100, tieThreshold := 1/20, leafPrediction := "nba",
    nbThreshold := 0, attributeObserver := "gaussian",
    removePoorAttrs := false, memoryEstimatePeriod := 4, growthAllowed := true }

/-- A sample non-pure leaf used by concrete witnesses. -/
def ldSample : LeafData :=
  { stats := [(0, 1), (1, 1)], depth := 0, isActive := true,
    lastSplitAttemptAt := 0, disabledAttrs := [] }

/-- The null (do-not-split) suggestion with merit 0. -/
def suggA : SplitSuggestion :=
  { merit := 0, splitTest := none, resultingStats := [[(0, 1), (1, 1)]] }

/-- A single-feature binary-split suggestion with merit 1. -/
def suggB : SplitSuggestion :=
  { merit := 1, splitTest := some (.numericBinary 0 5),
    resultingStats := [[(0, 1)], [(1, 1)]] }

/-- Fallback value used to extract concrete attempt results in witnesses. -/
def attemptDefault : AttemptRes :=
  { node := .leaf (freshLeaf 0), dAct := 0, dInact := 0, dDec := 0,
    didSplit := false, events := [] }

/-- A model that has observed classes 0 and 1 but has no root (used as the
hypothetical state of C3; a real fresh model has an empty class set). -/
def mNoRoot : Model :=
  { cfg := cfgSample, root := none, nActiveLeaves := 0, nInactiveLeaves := 0,
    nDecisionNodes := 0, weightSeen := 0, classes := [0, 1] }

/-- A sample training step: class 0, weight 4, no suggestions supplied. -/
def stepSample : StepInput :=
  { x := fun _ => 0, y := 0, weight := 4, suggestions := [], hb := 0 }

/-- Fallback value used to extract concrete `learnOne` results in
witnesses. -/
def learnOneDefault : Model × List Event × Bool := (initModel cfgSample, [], false)

/-- The class statistics of the node `predict_proba_one` draws its
prediction from. -/
def reachedStats (m : Model) (x : Ex) : Option Stats :=
  match m.root with
  | none => none
  | some t =>
    some (match predSource x t with
          | .inl ld => ld.stats
          | .inr s => s)

/-- The leaf standing at the root of the counterexample model: evidence for
class 0 only. -/
def ldOne : LeafData :=
  { stats := [(0, 1)], depth := 0, isActive := true, lastSplitAttemptAt := 0,
    disabledAttrs := [] }

/-- Counterexample model for C2: one trained example of class 0, classes
{0, 1} observed. -/
def mOneLeaf : Model :=
  { cfg := cfgSample, root := some (.leaf ldOne), nActiveLeaves := 1,
    nInactiveLeaves := 0, nDecisionNodes := 0, weightSeen := 1,
    classes := [0, 1] }

/-- Modelled from the spec: consistency of a suggestion's test with its
per-branch statistics (spec 3: for a multi-way nominal test "every branch
index produced by the test maps to exactly one child"): a multi-way test
proposes at most one branch per seen value.  The external attribute
observers guarantee this for every suggestion they emit. -/
def SplitSuggestion.wfSugg (s : SplitSuggestion) : Prop :=
  match s.splitTest with
  | some (.nominalMultiway _ seen) => s.resultingStats.length ≤ seen.length
  | _ => True

/-- A split node's children are consistent with its test: a multi-way test
over `seen` values has no child at any branch index beyond `seen` (spec 3
invariant on branch indices). -/
def wfTest (test : SplitTest) (cs : HChildren) : Prop :=
  match test with
  | .nominalMultiway _ seen => ∀ j, seen.length ≤ j → cs.get? j = none
  | _ => True

mutual
/-- Structural well-formedness of a subtree (branch-index consistency at
every multi-way split node). -/
def wfN : HNode → Prop
  | .leaf _ => True
  | .split sd cs => wfTest sd.test cs ∧ wfC cs

/-- Structural well-formedness of all children. -/
def wfC : HChildren → Prop
  | .nil => True
  | .consSome c t => wfN c ∧ wfC t
  | .consNone t => wfC t
end

/-- Well-formedness of an optional root. -/
def wfO : Option HNode → Prop
  | none => True
  | some t => wfN t

/-- Second sample step: class 1, weight 2, with the grace period elapsed and
suggestions that win a split. -/
def stepSample2 : StepInput :=
  { x := fun _ => 0, y := 1, weight := 2, suggestions := [suggA, suggB],
    hb := 0 }

/-- Configuration with a depth cap of 0, so the root leaf is immediately at
the cap. -/
def cfgCap : Config := { cfgSample with maxDepth := (0 : WithTop Nat) }

/-- Model whose root is an active leaf at depth 0 under the 0 depth cap. -/
def mCap : Model :=
  { cfg := cfgCap, root := some (.leaf ldSample), nActiveLeaves := 1,
    nInactiveLeaves := 0, nDecisionNodes := 0, weightSeen := 2,
    classes := [0, 1] }

/-- A multi-way split node over values `[7]` with one leaf child. -/
def sdMulti : SplitData :=
  { test := .nominalMultiway 0 [7], stats := [(0, 1)], depth := 0 }

/-- Model whose root is the multi-way split node. -/
def mMulti : Model :=
  { cfg := cfgSample,
    root := some (.split sdMulti (.consSome (.leaf ldOne) .nil)),
    nActiveLeaves := 1, nInactiveLeaves := 0, nDecisionNodes := 1,
    weightSeen := 1, classes := [0, 1] }

/-- A step whose example carries the unseen categorical value 5. -/
def stepNew : StepInput :=
  { x := fun _ => 5, y := 1, weight := 1, suggestions := [], hb := 0 }

lemma le_foldl_max (t : List ℚ) (a : ℚ) : a ≤ t.foldl max a := by
  induction t generalizing a with
  | nil => exact le_refl a
  | cons b t ih => exact le_trans (le_max_left a b) (ih (max a b))

lemma mem_le_foldl_max (t : List ℚ) (a x : ℚ) (hx : x ∈ t) :
    x ≤ t.foldl max a := by
  induction t generalizing a with
  | nil => cases hx
  | cons b t ih =>
    rcases List.mem_cons.mp hx with h | h
    · subst h
      exact le_trans (le_max_right a x) (le_foldl_max t (max a x))
    · exact ih (max a b) h

lemma le_listMax (l : List ℚ) (x : ℚ) (hx : x ∈ l) : x ≤ listMax l := by
  cases l with
  | nil => cases hx
  | cons h t =>
    rcases List.mem_cons.mp hx with hh | hh
    · subst hh; exact le_foldl_max t x
    · exact mem_le_foldl_max t h x hh

lemma foldl_max_mem (t : List ℚ) (a : ℚ) :
    t.foldl max a = a ∨ t.foldl max a ∈ t := by
  induction t generalizing a with
  | nil => exact Or.inl rfl
  | cons b t ih =>
    rcases ih (max a b) with h | h
    · rcases max_choice a b with hm | hm
      · exact Or.inl (by rw [List.foldl_cons, h, hm])
      · exact Or.inr (by rw [List.foldl_cons, h, hm]; exact List.mem_cons_self b t)
    · exact Or.inr (List.mem_cons_of_mem b (by rw [List.foldl_cons]; exact h))

lemma listMax_mem (l : List ℚ) (hl : l ≠ []) : listMax l ∈ l := by
  cases l with
  | nil => exact absurd rfl hl
  | cons h t =>
    rcases foldl_max_mem t h with he | he
    · rw [listMax, he]; exact List.mem_cons_self h t
    · rw [listMax]; exact List.mem_cons_of_mem h he

lemma listMax_perm {l l' : List ℚ} (h : l.Perm l') : listMax l = listMax l' := by
  cases l with
  | nil => rw [h.nil_eq]
  | cons a t =>
    have hl : (a :: t) ≠ [] := by simp
    have hl' : l' ≠ [] := by
      intro he; subst he; exact hl h.eq_nil
    apply le_antisymm
    · exact le_listMax l' _ (h.mem_iff.mp (listMax_mem _ hl))
    · exact le_listMax (a :: t) _ (h.mem_iff.mpr (listMax_mem l' hl'))

lemma sorted_listMax_getLast (M : List ℚ) (hs : M.Pairwise (· ≤ ·))
    (h : M ≠ []) : listMax M = M.getLast h := by
  have hM : M.dropLast ++ [M.getLast h] = M := List.dropLast_append_getLast h
  apply le_antisymm
  · have hmem : listMax M ∈ M.dropLast ++ [M.getLast h] := by
      rw [hM]; exact listMax_mem M h
    have hs' : (M.dropLast ++ [M.getLast h]).Pairwise (· ≤ ·) := by
      rw [hM]; exact hs
    rcases List.mem_append.mp hmem with hm | hm
    · exact (List.pairwise_append.mp hs').2.2 _ hm _ (List.mem_singleton_self _)
    · rw [List.mem_singleton.mp hm]
  · exact le_listMax M _ (List.getLast_mem h)

lemma erase_concat_perm (L : List ℚ) (b : ℚ) : ((L ++ [b]).erase b).Perm L := by
  by_cases hmem : b ∈ L
  · rw [List.erase_append_left _ hmem]
    exact (List.perm_append_singleton _ _).trans (List.perm_cons_erase hmem).symm
  · rw [List.erase_append_right _ hmem, List.erase_cons_head]
    simp

lemma erase_getLast_perm (M : List ℚ) (h : M ≠ []) :
    (M.erase (M.getLast h)).Perm M.dropLast := by
  have hM : M.dropLast ++ [M.getLast h] = M := List.dropLast_append_getLast h
  have h1 : M.erase (M.getLast h) = (M.dropLast ++ [M.getLast h]).erase (M.getLast h) := by
    rw [hM]
  rw [h1]
  exact erase_concat_perm _ _

end Helpers

section SortBridge

lemma insertByMerit_perm (s : SplitSuggestion) (l : List SplitSuggestion) :
    (insertByMerit s l).Perm (s :: l) := by
  induction l with
  | nil => exact List.Perm.refl _
  | cons h t ih =>
    unfold insertByMerit
    split
    · exact (ih.cons h).trans (List.Perm.swap s h t)
    · exact List.Perm.refl _

lemma sortSuggs_perm (l : List SplitSuggestion) : (sortSuggs l).Perm l := by
  induction l with
  | nil => exact List.Perm.refl _
  | cons s rest ih =>
    exact (insertByMerit_perm s (sortSuggs rest)).trans (ih.cons s)

lemma insertByMerit_sorted (s : SplitSuggestion) (l : List SplitSuggestion)
    (hl : l.Pairwise (fun a b => a.merit ≤ b.merit)) :
    (insertByMerit s l).Pairwise (fun a b => a.merit ≤ b.merit) := by
  induction l with
  | nil => simp [insertByMerit]
  | cons h t ih =>
    rcases List.pairwise_cons.mp hl with ⟨hh, ht⟩
    unfold insertByMerit
    split
    · rename_i hlt
      refine List.pairwise_cons.mpr ⟨?_, ih ht⟩
      intro b hb
      rcases List.mem_cons.mp ((insertByMerit_perm s t).mem_iff.mp hb) with rfl | hbt
      · exact le_of_lt hlt
      · exact hh b hbt
    · rename_i hge
      refine List.pairwise_cons.mpr ⟨?_, hl⟩
      intro b hb
      rcases List.mem_cons.mp hb with rfl | hbt
      · exact le_of_not_lt hge
      · exact le_trans (le_of_not_lt hge) (hh b hbt)

lemma sortSuggs_sorted (l : List SplitSuggestion) :
    (sortSuggs l).Pairwise (fun a b => a.merit ≤ b.merit) := by
  induction l with
  | nil => simp [sortSuggs]
  | cons s rest ih => exact insertByMerit_sorted s (sortSuggs rest) ih

lemma sortSuggs_length (l : List SplitSuggestion) :
    (sortSuggs l).length = l.length :=
  (sortSuggs_perm l).length_eq

lemma best_eq_listMax (suggs : List SplitSuggestion) (best : SplitSuggestion)
    (hbest : (sortSuggs suggs).getLast? = some best) :
    best.merit = listMax (suggs.map SplitSuggestion.merit) := by
  have hne : sortSuggs suggs ≠ [] := by
    intro h; rw [h] at hbest; simp at hbest
  have hMne : (sortSuggs suggs).map SplitSuggestion.merit ≠ [] := by
    simp [hne]
  have hM : ((sortSuggs suggs).map SplitSuggestion.merit).getLast? =
      some best.merit := by
    rw [List.getLast?_map, hbest]; rfl
  have hpw : ((sortSuggs suggs).map SplitSuggestion.merit).Pairwise (· ≤ ·) :=
    List.pairwise_map.mpr (sortSuggs_sorted suggs)
  have h1 : listMax ((sortSuggs suggs).map SplitSuggestion.merit) =
      ((sortSuggs suggs).map SplitSuggestion.merit).getLast hMne :=
    sorted_listMax_getLast _ hpw hMne
  have h2 : listMax (suggs.map SplitSuggestion.merit) =
      listMax ((sortSuggs suggs).map SplitSuggestion.merit) :=
    (listMax_perm ((sortSuggs_perm suggs).map SplitSuggestion.merit)).symm
  rw [List.getLast?_eq_getLast _ hMne] at hM
  rw [h2, h1]
  exact (Option.some_injective _ hM).symm

lemma second_eq_secondMax (suggs : List SplitSuggestion)
    (best second : SplitSuggestion)
    (hbest : (sortSuggs suggs).getLast? = some best)
    (hsecond : (sortSuggs suggs).dropLast.getLast? = some second)
    (hlen : 2 ≤ (sortSuggs suggs).length) :
    second.merit = secondMax (suggs.map SplitSuggestion.merit) := by
  have hne : sortSuggs suggs ≠ [] := by
    intro h; rw [h] at hbest; simp at hbest
  have hMne : (sortSuggs suggs).map SplitSuggestion.merit ≠ [] := by simp [hne]
  have hpw : ((sortSuggs suggs).map SplitSuggestion.merit).Pairwise (· ≤ ·) :=
    List.pairwise_map.mpr (sortSuggs_sorted suggs)
  have hbm := best_eq_listMax suggs best hbest
  -- the merits of the sorted list end in the best merit
  have hMlast : ((sortSuggs suggs).map SplitSuggestion.merit).getLast hMne =
      best.merit := by
    have hM : ((sortSuggs suggs).map SplitSuggestion.merit).getLast? =
        some best.merit := by
      rw [List.getLast?_map, hbest]; rfl
    rw [List.getLast?_eq_getLast _ hMne] at hM
    exact Option.some_injective _ hM
  -- removing one copy of the best merit leaves (up to permutation) the
  -- merits of the sorted list without its final element
  have hperm0 : (suggs.map SplitSuggestion.merit).Perm
      ((sortSuggs suggs).map SplitSuggestion.merit) :=
    ((sortSuggs_perm suggs).map SplitSuggestion.merit).symm
  have hperm1 : ((suggs.map SplitSuggestion.merit).erase
        (listMax (suggs.map SplitSuggestion.merit))).Perm
      (((sortSuggs suggs).map SplitSuggestion.merit).dropLast) := by
    have he : ((suggs.map SplitSuggestion.merit).erase
          (listMax (suggs.map SplitSuggestion.merit))).Perm
        (((sortSuggs suggs).map SplitSuggestion.merit).erase
          (((sortSuggs suggs).map SplitSuggestion.merit).getLast hMne)) := by
      rw [hMlast, ← hbm]
      exact hperm0.erase _
    exact he.trans (erase_getLast_perm _ hMne)
  -- the remaining list is still sorted, nonempty, and ends in the second merit
  have hdne : ((sortSuggs suggs).map SplitSuggestion.merit).dropLast ≠ [] := by
    have hld : (((sortSuggs suggs).map SplitSuggestion.merit).dropLast).length =
        (sortSuggs suggs).length - 1 := by
      rw [List.length_dropLast, List.length_map]
    intro h
    rw [h] at hld
    simp at hld
    omega
  have hpwd : (((sortSuggs suggs).map SplitSuggestion.merit).dropLast).Pairwise
      (· ≤ ·) :=
    List.Pairwise.sublist (List.dropLast_sublist _) hpw
  have hdm : ((sortSuggs suggs).map SplitSuggestion.merit).dropLast =
      ((sortSuggs suggs).dropLast).map SplitSuggestion.merit :=
    (List.map_dropLast _ _).symm
  have hlast2 : (((sortSuggs suggs).map SplitSuggestion.merit).dropLast).getLast? =
      some second.merit := by
    rw [hdm, List.getLast?_map, hsecond]; rfl
  rw [List.getLast?_eq_getLast _ hdne] at hlast2
  unfold secondMax
  rw [listMax_perm hperm1, sorted_listMax_getLast _ hpwd hdne]
  exact (Option.some_injective _ hlast2).symm

end SortBridge

section AttemptMaster

lemma disableAttribute_fields (ld : LeafData) (a : Nat) :
    (disableAttribute ld a).stats = ld.stats ∧
    (disableAttribute ld a).depth = ld.depth ∧
    (disableAttribute ld a).isActive = ld.isActive ∧
    (disableAttribute ld a).lastSplitAttemptAt = ld.lastSplitAttemptAt := by
  unfold disableAttribute
  split <;> exact ⟨rfl, rfl, rfl, rfl⟩

lemma disableAll_fields (ld : LeafData) (atts : List Nat) :
    (disableAll ld atts).stats = ld.stats ∧
    (disableAll ld atts).depth = ld.depth ∧
    (disableAll ld atts).isActive = ld.isActive ∧
    (disableAll ld atts).lastSplitAttemptAt = ld.lastSplitAttemptAt := by
  induction atts generalizing ld with
  | nil => exact ⟨rfl, rfl, rfl, rfl⟩
  | cons a t ih =>
    have hstep : disableAll ld (a :: t) = disableAll (disableAttribute ld a) t := rfl
    obtain ⟨h1, h2, h3, h4⟩ := ih (disableAttribute ld a)
    obtain ⟨g1, g2, g3, g4⟩ := disableAttribute_fields ld a
    rw [hstep]
    exact ⟨h1.trans g1, h2.trans g2, h3.trans g3, h4.trans g4⟩

lemma leaf_disableAll_eq (ld : LeafData) (atts : List Nat) :
    HNode.leaf (disableAll ld atts) =
    HNode.leaf { ld with disabledAttrs := (disableAll ld atts).disabledAttrs } := by
  obtain ⟨h1, h2, h3, h4⟩ := disableAll_fields ld atts
  rw [← h1, ← h2, ← h3, ← h4]

lemma mkDecision_spec (ld' : LeafData) (S : List SplitSuggestion) (ss : Bool)
    (r : AttemptRes) (hres : mkDecision ld' S ss = some r) :
    r.didSplit = ss ∧
    r.events = (if ss = true then [Event.enforceSize] else []) ∧
    (ss = false → r.node = .leaf ld') := by
  unfold mkDecision at hres
  cases ss with
  | false =>
    rw [if_neg Bool.false_ne_true] at hres
    obtain rfl : _ = r := Option.some.inj hres
    exact ⟨rfl, rfl, fun _ => rfl⟩
  | true =>
    rw [if_pos rfl] at hres
    split at hres
    · cases hres
    · split at hres
      · obtain rfl : _ = r := Option.some.inj hres
        exact ⟨rfl, rfl, fun h => by cases h⟩
      · obtain rfl : _ = r := Option.some.inj hres
        exact ⟨rfl, rfl, fun h => by cases h⟩

/-- Full behavioural characterisation of `_attempt_to_split`: the
`should_split` decision agrees with the spec's decision rule, the
size-enforcement collaborator is invoked exactly on a positive decision,
and a negative decision leaves the leaf in place with at most its
disabled-attribute set changed. -/
lemma attemptToSplit_master (cfg : Config) (ld : LeafData)
    (suggs : List SplitSuggestion) (hb : ℚ) (r : AttemptRes)
    (hres : attemptToSplit cfg ld suggs hb = some r) :
    (r.didSplit = true ↔
      (distributionIsPure ld.stats = false ∧
        specShouldSplit (suggs.map SplitSuggestion.merit) hb cfg.tieThreshold)) ∧
    r.events = (if r.didSplit = true then [Event.enforceSize] else []) ∧
    (r.didSplit = false →
      ∃ d, r.node = .leaf { ld with disabledAttrs := d }) := by
  unfold attemptToSplit at hres
  by_cases hpure : distributionIsPure ld.stats
  · rw [if_pos hpure] at hres
    simp only [Option.some.injEq] at hres
    subst hres
    refine ⟨?_, rfl, fun _ => ⟨ld.disabledAttrs, rfl⟩⟩
    simp [hpure]
  · rw [if_neg hpure] at hres
    have hpure' : distributionIsPure ld.stats = false := by
      simpa using hpure
    have hlensort := sortSuggs_length suggs
    have hlenmap : (suggs.map SplitSuggestion.merit).length = suggs.length :=
      List.length_map _ _
    unfold attemptBody at hres
    by_cases hlen : (sortSuggs suggs).length < 2
    · rw [if_pos hlen] at hres
      obtain ⟨h1, h2, h3⟩ := mkDecision_spec _ _ _ _ hres
      refine ⟨?_, by rw [h1]; exact h2, ?_⟩
      · rw [h1]
        constructor
        · intro h
          refine ⟨hpure', Or.inl ?_⟩
          simp only [decide_eq_true_eq] at h
          omega
        · rintro ⟨-, h | h⟩
          · simp only [decide_eq_true_eq]
            omega
          · omega
      · intro h
        rw [h1] at h
        rw [h3 h]
        exact ⟨ld.disabledAttrs, rfl⟩
    · rw [if_neg hlen] at hres
      have hlen2 : 2 ≤ (sortSuggs suggs).length := by omega
      split at hres
      · rename_i best second hbest hsecond
        have hbm := best_eq_listMax suggs best hbest
        have hsm := second_eq_secondMax suggs best second hbest hsecond hlen2
        have hiff : ((decide (best.merit - second.merit > hb) ||
              decide (hb < cfg.tieThreshold)) = true) ↔
            (distributionIsPure ld.stats = false ∧
              specShouldSplit (suggs.map SplitSuggestion.merit) hb
                cfg.tieThreshold) := by
          simp only [Bool.or_eq_true, decide_eq_true_eq]
          unfold specShouldSplit
          rw [← hbm, ← hsm]
          constructor
          · intro h
            exact ⟨hpure', Or.inr ⟨by omega, h⟩⟩
          · rintro ⟨-, h | h⟩
            · omega
            · exact h.2
        by_cases hrpa : cfg.removePoorAttrs
        · rw [if_pos hrpa] at hres
          cases hcp : collectPoor best hb (sortSuggs suggs) with
          | none => rw [hcp] at hres; cases hres
          | some poor =>
            rw [hcp] at hres
            obtain ⟨h1, h2, h3⟩ := mkDecision_spec _ _ _ _ hres
            refine ⟨by rw [h1]; exact hiff, by rw [h1]; exact h2, ?_⟩
            intro h
            rw [h1] at h
            rw [h3 h]
            exact ⟨(disableAll ld poor).disabledAttrs, leaf_disableAll_eq ld poor⟩
        · rw [if_neg hrpa] at hres
          obtain ⟨h1, h2, h3⟩ := mkDecision_spec _ _ _ _ hres
          refine ⟨by rw [h1]; exact hiff, by rw [h1]; exact h2, ?_⟩
          intro h
          rw [h1] at h
          rw [h3 h]
          exact ⟨ld.disabledAttrs, rfl⟩
      · cases hres

end AttemptMaster

/-- C1: for a leaf with a non-pure class distribution, `_attempt_to_split`
decides to split exactly when fewer than two suggestions exist and at least
one does, or the best merit exceeds the second best by more than the
Hoeffding bound ε, or ε is below the tie threshold τ; on a negative
decision the leaf stays in place unchanged (up to the separately specified
poor-attribute disabling). -/
theorem c1_split_decision_rule (cfg : Config) (ld : LeafData)
    (suggs : List SplitSuggestion) (hb : ℚ) (r : AttemptRes)
    (hpure : distributionIsPure ld.stats = false)
    (hres : attemptToSplit cfg ld suggs hb = some r) :
    (r.didSplit = true ↔
      specShouldSplit (suggs.map SplitSuggestion.merit) hb cfg.tieThreshold) ∧
    (r.didSplit = false →
      ∃ d, r.node = HNode.leaf { ld with disabledAttrs := d }) := by
  obtain ⟨h1, h2, h3⟩ := attemptToSplit_master cfg ld suggs hb r hres
  refine ⟨?_, h3⟩
  rw [h1]
  simp [hpure]

/-- Witness for C1: a concrete non-pure leaf, a null and a real suggestion
with merits 0 and 1, ε = 1/2. -/
theorem c1_split_decision_rule_witness :
    distributionIsPure ldSample.stats = false ∧
    ((((attemptToSplit cfgSample ldSample [suggA, suggB] (1/2)).getD
        attemptDefault).didSplit = true ↔
      specShouldSplit ([suggA, suggB].map SplitSuggestion.merit) (1/2)
        cfgSample.tieThreshold) ∧
    (((attemptToSplit cfgSample ldSample [suggA, suggB] (1/2)).getD
        attemptDefault).didSplit = false →
      ∃ d, ((attemptToSplit cfgSample ldSample [suggA, suggB] (1/2)).getD
        attemptDefault).node = HNode.leaf { ldSample with disabledAttrs := d })) :=
  ⟨rfl,
   c1_split_decision_rule cfgSample ldSample [suggA, suggB] (1/2) _ rfl
     (by norm_num [attemptToSplit, attemptBody, mkDecision, sortSuggs,
       insertByMerit, distributionIsPure, collectPoor, buildChildren,
       totalWeight, cfgSample, ldSample, suggA, suggB, attemptDefault])⟩

/-- C10: a split attempt invokes the size-enforcement collaborator exactly
once when it decides to split (pre-prune included) and not at all
otherwise; the decision itself is characterised by the purity guard and the
spec decision rule. -/
theorem c10_enforce_size_iff_split (cfg : Config) (ld : LeafData)
    (suggs : List SplitSuggestion) (hb : ℚ) (r : AttemptRes)
    (hres : attemptToSplit cfg ld suggs hb = some r) :
    r.events.count Event.enforceSize =
      (if r.didSplit = true then 1 else 0) ∧
    (r.didSplit = true ↔
      (distributionIsPure ld.stats = false ∧
        specShouldSplit (suggs.map SplitSuggestion.merit) hb
          cfg.tieThreshold)) := by
  obtain ⟨h1, h2, h3⟩ := attemptToSplit_master cfg ld suggs hb r hres
  refine ⟨?_, h1⟩
  rw [h2]
  by_cases hds : r.didSplit = true
  · rw [if_pos hds, if_pos hds]; decide
  · rw [if_neg hds, if_neg hds]; decide

/-- Witness for C10 at the same concrete deciding attempt. -/
theorem c10_enforce_size_iff_split_witness :
    ((attemptToSplit cfgSample ldSample [suggA, suggB] (1/2)).getD
        attemptDefault).events.count Event.enforceSize =
      (if ((attemptToSplit cfgSample ldSample [suggA, suggB] (1/2)).getD
        attemptDefault).didSplit = true then 1 else 0) ∧
    (((attemptToSplit cfgSample ldSample [suggA, suggB] (1/2)).getD
        attemptDefault).didSplit = true ↔
      (distributionIsPure ldSample.stats = false ∧
        specShouldSplit ([suggA, suggB].map SplitSuggestion.merit) (1/2)
          cfgSample.tieThreshold)) :=
  c10_enforce_size_iff_split cfgSample ldSample [suggA, suggB] (1/2) _
    (by norm_num [attemptToSplit, attemptBody, mkDecision, sortSuggs,
      insertByMerit, distributionIsPure, collectPoor, buildChildren,
      totalWeight, cfgSample, ldSample, suggA, suggB, attemptDefault])

/-- C7 (code bug): with `remove_poor_attrs` enabled and the null suggestion
present among at least two candidates — as the collaborator contract of
spec 6 requires — the poor-attribute loop evaluates
`suggestion.split_test.attrs_test_depends_on()` on `split_test = None`
(the guard on line 250 checks the suggestion object, not its test) and the
whole attempt raises `AttributeError` instead of disabling any observer. -/
theorem c7_remove_poor_attrs_crash :
    attemptToSplit { cfgSample with removePoorAttrs := true } ldSample
      [suggA, suggB] 2 = none := rfl

/-- C8: construction with an attribute-observer kind outside
{bst, gaussian, histogram} raises an error; an invalid split-criterion
string succeeds with a diagnostic and the info-gain default; an invalid
leaf-prediction string succeeds with a diagnostic and the
naive-bayes-adaptive default. -/
theorem c8_construction_validation
    (gp : Nat) (md : WithTop Nat) (sc : String) (scf : ℚ) (tt : ℚ)
    (lp : String) (nbt : Nat) (ao : String) (rpa : Bool) (mep : Nat) :
    (ao ∉ validAOs →
      initClassifier gp md sc scf tt lp nbt ao rpa mep =
        .error .invalidAttributeObserver) ∧
    (ao ∈ validAOs → sc ∉ validSplitCriteria →
      ∃ cfg diags,
        initClassifier gp md sc scf tt lp nbt ao rpa mep = .ok (cfg, diags) ∧
        cfg.splitCriterion = "info_gain" ∧
        Diag.invalidSplitCriterion ∈ diags) ∧
    (ao ∈ validAOs → lp ∉ validLeafPredictions →
      ∃ cfg diags,
        initClassifier gp md sc scf tt lp nbt ao rpa mep = .ok (cfg, diags) ∧
        cfg.leafPrediction = "nba" ∧
        Diag.invalidLeafPrediction ∈ diags) := by
  refine ⟨?_, ?_, ?_⟩
  · intro h
    unfold initClassifier
    rw [if_neg h]
  · intro hao hsc
    unfold initClassifier
    rw [if_pos hao]
    refine ⟨_, _, rfl, ?_, ?_⟩
    · simp [setSplitCriterion, hsc]
    · simp [setSplitCriterion, hsc]
  · intro hao hlp
    unfold initClassifier
    rw [if_pos hao]
    refine ⟨_, _, rfl, ?_, ?_⟩
    · simp [setLeafPrediction, hlp]
    · simp [setLeafPrediction, hlp]

/-- Witness for C8: kind `"foo"` fails construction; criterion `"bar"` and
leaf prediction `"baz"` are soft-corrected. -/
theorem c8_construction_validation_witness :
    (initClassifier 200 ⊤ "info_gain" 1 1 "nba" 0 "foo" false 1000000 =
      .error .invalidAttributeObserver) ∧
    (∃ cfg diags,
      initClassifier 200 ⊤ "bar" 1 1 "baz" 0 "bst" false 1000000 =
        .ok (cfg, diags) ∧
      cfg.splitCriterion = "info_gain" ∧
      Diag.invalidSplitCriterion ∈ diags) ∧
    (∃ cfg diags,
      initClassifier 200 ⊤ "bar" 1 1 "baz" 0 "bst" false 1000000 =
        .ok (cfg, diags) ∧
      cfg.leafPrediction = "nba" ∧
      Diag.invalidLeafPrediction ∈ diags) :=
  ⟨(c8_construction_validation 200 ⊤ "info_gain" 1 1 "nba" 0 "foo" false
      1000000).1 (by decide),
   (c8_construction_validation 200 ⊤ "bar" 1 1 "baz" 0 "bst" false
      1000000).2.1 (by decide) (by decide),
   (c8_construction_validation 200 ⊤ "bar" 1 1 "baz" 0 "bst" false
      1000000).2.2 (by decide) (by decide)⟩

lemma ratMod_eq_zero_iff (a b : ℚ) (hbpos : 0 < b) :
    ratMod a b = 0 ↔ ∃ k : ℤ, a = k * b := by
  unfold ratMod
  constructor
  · intro h
    exact ⟨⌊a / b⌋, by linarith⟩
  · rintro ⟨k, rfl⟩
    have hbne : b ≠ 0 := ne_of_gt hbpos
    rw [mul_div_assoc, div_self hbne, mul_one, Int.floor_intCast]
    ring

/-- C9: `learn_one` fires the periodic `_estimate_model_size` call exactly
when the cumulative weight seen (after adding this example's weight, of any
sign or fraction) is an integer multiple of the memory-estimate period. -/
theorem c9_periodic_size_estimate (m : Model) (st : StepInput)
    (m' : Model) (ev : List Event) (est : Bool)
    (hp : 0 < m.cfg.memoryEstimatePeriod)
    (h : learnOne m st = some (m', ev, est)) :
    m'.weightSeen = m.weightSeen + st.weight ∧
    (est = true ↔
      ∃ k : ℤ, m.weightSeen + st.weight =
        k * (m.cfg.memoryEstimatePeriod : ℚ)) := by
  unfold learnOne at h
  obtain ⟨r, hr, heq⟩ := Option.map_eq_some'.mp h
  simp only [Prod.mk.injEq] at heq
  obtain ⟨hm, hev, hest⟩ := heq
  constructor
  · rw [← hm]
  · rw [← hest]
    rw [decide_eq_true_iff]
    exact ratMod_eq_zero_iff _ _ (by exact_mod_cast hp)

lemma lookup_zero_map (l : List Nat) (c : Nat) (hc : c ∈ l) :
    (l.map (fun c => (c, (0:ℚ)))).lookup c = some 0 := by
  induction l with
  | nil => cases hc
  | cons a t ih =>
    by_cases hca : c = a
    · subst hca
      simp [List.lookup]
    · have hct : c ∈ t := by
        rcases List.mem_cons.mp hc with h | h
        · exact absurd h hca
        · exact h
      have hbeq : (c == a) = false := by simp [hca]
      simp only [List.map_cons, List.lookup, hbeq]
      exact ih hct

/-- C3: on a model without a root, `predict_proba_one` returns, without
error, the distribution mapping every class observed so far to 0. -/
theorem c3_no_root_zero_distribution (e : ℚ → ℚ) (pf : PredStrategy)
    (m : Model) (x : Ex) (h : m.root = none) :
    predictProbaOne e pf m x = m.classes.map (fun c => (c, (0:ℚ))) ∧
    ∀ c ∈ m.classes, (predictProbaOne e pf m x).lookup c = some 0 := by
  have h1 : predictProbaOne e pf m x = m.classes.map (fun c => (c, (0:ℚ))) := by
    unfold predictProbaOne
    rw [h]
  refine ⟨h1, ?_⟩
  intro c hc
  rw [h1]
  exact lookup_zero_map m.classes c hc

/-- Witness for C3 at a concrete rootless model. -/
theorem c3_no_root_zero_distribution_witness :
    predictProbaOne (fun _ => 1) predMC mNoRoot (fun _ => 0) =
      mNoRoot.classes.map (fun c => (c, (0:ℚ))) ∧
    ∀ c ∈ mNoRoot.classes,
      (predictProbaOne (fun _ => 1) predMC mNoRoot (fun _ => 0)).lookup c =
        some 0 :=
  c3_no_root_zero_distribution (fun _ => 1) predMC mNoRoot (fun _ => 0) rfl

/-- Witness for C9: one example of weight 4 on a fresh model with
memory-estimate period 4 fires the size estimate. -/
theorem c9_periodic_size_estimate_witness :
    0 < (initModel cfgSample).cfg.memoryEstimatePeriod ∧
    (((learnOne (initModel cfgSample) stepSample).getD learnOneDefault).1.weightSeen =
      (initModel cfgSample).weightSeen + stepSample.weight ∧
    (((learnOne (initModel cfgSample) stepSample).getD learnOneDefault).2.2 = true ↔
      ∃ k : ℤ, (initModel cfgSample).weightSeen + stepSample.weight =
        k * ((initModel cfgSample).cfg.memoryEstimatePeriod : ℚ))) :=
  ⟨by decide,
   c9_periodic_size_estimate (initModel cfgSample) stepSample
     ((learnOne (initModel cfgSample) stepSample).getD learnOneDefault).1
     ((learnOne (initModel cfgSample) stepSample).getD learnOneDefault).2.1
     ((learnOne (initModel cfgSample) stepSample).getD learnOneDefault).2.2
     (by decide)
     (by norm_num [learnOne, learnNode, processLeaf, attemptToSplit,
       attemptBody, mkDecision, sortSuggs, leafLearnOne, statsAdd, totalWeight,
       distributionIsPure, freshLeaf, insertClass, ratMod, initModel,
       cfgSample, stepSample, learnOneDefault, Int.floor_one])⟩

section SoftmaxProps

lemma div_sum_eq (l : List ℚ) (c : ℚ) :
    (l.map (fun v => v / c)).sum = l.sum / c := by
  induction l with
  | nil => simp
  | cons a t ih => simp [ih, add_div]

lemma sum_pos_of_mem_pos (l : List ℚ) (hne : l ≠ []) (hp : ∀ v ∈ l, 0 < v) :
    0 < l.sum := by
  cases l with
  | nil => exact absurd rfl hne
  | cons a t =>
    rw [List.sum_cons]
    have ha : 0 < a := hp a (List.mem_cons_self a t)
    have ht : 0 ≤ t.sum :=
      List.sum_nonneg (fun v hv => le_of_lt (hp v (List.mem_cons_of_mem a hv)))
    linarith

lemma map_pair_snd (f : ℚ → ℚ) (l : Stats) :
    (l.map fun kv => (kv.1, f kv.2)).map Prod.snd = (l.map Prod.snd).map f := by
  induction l with
  | nil => rfl
  | cons a t ih => simp only [List.map_cons, ih]

/-- Dividing every value of a dictionary of positive values by their sum
yields a dictionary whose values sum to 1 and stay positive. -/
lemma sum_one_pos_of_pos_list (l : Stats) (hl : l ≠ [])
    (hp : ∀ kv ∈ l, 0 < kv.2) :
    totalWeight (l.map fun kv => (kv.1, kv.2 / totalWeight l)) = 1 ∧
    ∀ kv ∈ l.map fun kv => (kv.1, kv.2 / totalWeight l), 0 < kv.2 := by
  have hvne : l.map Prod.snd ≠ [] := by
    intro hnil
    exact hl (List.map_eq_nil_iff.mp hnil)
  have hvpos : ∀ v ∈ l.map Prod.snd, 0 < v := by
    intro v hv
    obtain ⟨kv, hkv, rfl⟩ := List.mem_map.mp hv
    exact hp kv hkv
  have htpos : 0 < totalWeight l := sum_pos_of_mem_pos _ hvne hvpos
  constructor
  · show ((l.map fun kv => (kv.1, kv.2 / totalWeight l)).map Prod.snd).sum = 1
    rw [map_pair_snd (fun v => v / totalWeight l) l, div_sum_eq]
    exact div_self (ne_of_gt htpos)
  · intro kv hkv
    obtain ⟨kv0, hkv0, rfl⟩ := List.mem_map.mp hkv
    exact div_pos (hp kv0 hkv0) htpos

/-- On a nonempty dictionary, the softmax transform returns a dictionary
whose values sum to 1 and are all strictly positive, for any strictly
positive exponential-like function. -/
lemma softmaxD_props (e : ℚ → ℚ) (he : ∀ q, 0 < e q) (d : Stats)
    (hd : d ≠ []) :
    totalWeight (softmaxD e d) = 1 ∧ ∀ kv ∈ softmaxD e d, 0 < kv.2 := by
  have hie : d.isEmpty = false := by
    cases d with
    | nil => exact absurd rfl hd
    | cons a t => rfl
  have heq : softmaxD e d =
      (d.map fun kv => (kv.1, e (kv.2 - listMax (d.map Prod.snd)))).map
        fun kv => (kv.1, kv.2 /
          totalWeight (d.map fun kv => (kv.1,
            e (kv.2 - listMax (d.map Prod.snd))))) := by
    unfold softmaxD
    rw [if_neg (by rw [hie]; exact Bool.false_ne_true)]
    rfl
  rw [heq]
  apply sum_one_pos_of_pos_list
  · intro hnil
    exact hd (List.map_eq_nil_iff.mp hnil)
  · intro kv hkv
    obtain ⟨kv0, -, rfl⟩ := List.mem_map.mp hkv
    exact he _

lemma dictSet_ne_nil (d : Stats) (k : Nat) (v : ℚ) : dictSet d k v ≠ [] := by
  cases d with
  | nil => simp [dictSet]
  | cons a t =>
    unfold dictSet
    split <;> simp

lemma dictUpdate_ne_nil (d : Stats) (p : Stats) (hd : d ≠ []) :
    dictUpdate d p ≠ [] := by
  induction p generalizing d with
  | nil => simpa [dictUpdate]
  | cons a pt ih =>
    have hstep : dictUpdate d (a :: pt) = dictUpdate (dictSet d a.1 a.2) pt := rfl
    rw [hstep]
    exact ih _ (dictSet_ne_nil d a.1 a.2)

end SoftmaxProps

/-- C2 (counterexample): the claim as stated — sum 1, non-negative, and
probability 0 for observed classes without evidence at the reached node —
fails on its third clause: after the softmax-style transform (any strictly
positive exponential), a no-evidence class receives strictly positive
probability, here 1/2 instead of 0, under the spec's own majority-class
leaf strategy. -/
theorem c2_distribution_counterexample :
    ¬ (∀ e : ℚ → ℚ, (∀ q, 0 < e q) → ∀ pf : PredStrategy, ∀ m : Model,
        ∀ x : Ex,
        totalWeight (predictProbaOne e pf m x) = 1 ∧
        (∀ kv ∈ predictProbaOne e pf m x, 0 ≤ kv.2) ∧
        (∀ s c, reachedStats m x = some s → c ∈ m.classes →
          (∀ kv ∈ s, kv.1 ≠ c) →
          (predictProbaOne e pf m x).lookup c = some 0)) := by
  intro h
  obtain ⟨-, -, hz⟩ := h (fun _ => 1) (fun _ => one_pos) predMC mOneLeaf
    (fun _ => 0)
  have hlook := hz [(0, 1)] 1 rfl (by decide) (by decide)
  norm_num [predictProbaOne, predSource, predMC, softmaxD, dictUpdate,
    dictSet, listMax, totalWeight, mOneLeaf, ldOne, cfgSample, List.lookup,
    show ((1:Nat) == 0) = false from rfl,
    show ((1:Nat) == 1) = true from rfl] at hlook

/-- C2 (amended): whenever the tree has a root and at least one class has
been observed, the returned distribution sums to 1 and every returned
probability is strictly positive (in particular non-negative); a class
without evidence at the reached node thus receives a positive probability
rather than 0 after the softmax-style transform, whatever strictly positive
exponential and leaf-prediction strategy are used. -/
theorem c2_sum_one_pos (e : ℚ → ℚ) (he : ∀ q, 0 < e q) (pf : PredStrategy)
    (m : Model) (x : Ex) (t : HNode) (hroot : m.root = some t)
    (hcls : m.classes ≠ []) :
    totalWeight (predictProbaOne e pf m x) = 1 ∧
    ∀ kv ∈ predictProbaOne e pf m x, 0 < kv.2 := by
  have heval : predictProbaOne e pf m x =
      softmaxD e (dictUpdate (m.classes.map fun c => (c, (0:ℚ)))
        (match predSource x t with
         | .inl ld => pf ld x
         | .inr s => s)) := by
    unfold predictProbaOne
    rw [hroot]
  rw [heval]
  apply softmaxD_props e he
  apply dictUpdate_ne_nil
  intro hnil
  exact hcls (List.map_eq_nil_iff.mp hnil)

/-- Witness for the amended C2 at the concrete one-leaf model. -/
theorem c2_sum_one_pos_witness :
    totalWeight (predictProbaOne (fun _ => 1) predMC mOneLeaf (fun _ => 0)) = 1 ∧
    ∀ kv ∈ predictProbaOne (fun _ => 1) predMC mOneLeaf (fun _ => 0),
      0 < kv.2 :=
  c2_sum_one_pos (fun _ => 1) (fun _ => one_pos) predMC mOneLeaf (fun _ => 0)
    (.leaf ldOne) rfl (by decide)

section CountLemmas

lemma counts_set_nil (i : Nat) (n : HNode) :
    countLeavesC (HChildren.nil.set i n) = countLeavesN n ∧
    countSplitsC (HChildren.nil.set i n) = countSplitsN n := by
  induction i with
  | zero => simp [HChildren.set, countLeavesC, countSplitsC]
  | succ k ih =>
    simpa [HChildren.set, countLeavesC, countSplitsC] using ih

theorem counts_set_none : ∀ (cs : HChildren) (i : Nat) (n : HNode),
    cs.get? i = none →
    countLeavesC (cs.set i n) = countLeavesC cs + countLeavesN n ∧
    countSplitsC (cs.set i n) = countSplitsC cs + countSplitsN n
  | .nil, i, n, _ => by
    obtain ⟨h1, h2⟩ := counts_set_nil i n
    simp [countLeavesC, countSplitsC, h1, h2]
  | .consSome c t, 0, n, h => by simp [HChildren.get?] at h
  | .consSome c t, k + 1, n, h => by
    obtain ⟨h1, h2⟩ := counts_set_none t k n h
    simp [HChildren.set, countLeavesC, countSplitsC, h1, h2, Nat.add_assoc]
  | .consNone t, 0, n, h => by
    simp [HChildren.set, countLeavesC, countSplitsC, Nat.add_comm]
  | .consNone t, k + 1, n, h => by
    obtain ⟨h1, h2⟩ := counts_set_none t k n h
    simp [HChildren.set, countLeavesC, countSplitsC, h1, h2]

theorem get?_setNil_ne : ∀ (i j : Nat) (n : HNode), j ≠ i →
    (HChildren.nil.set i n).get? j = HChildren.nil.get? j
  | 0, 0, n, hne => absurd rfl hne
  | 0, j + 1, n, _ => by simp [HChildren.set, HChildren.get?]
  | i + 1, 0, n, _ => by simp [HChildren.set, HChildren.get?]
  | i + 1, j + 1, n, hne => by
    simp only [HChildren.set, HChildren.get?]
    exact get?_setNil_ne i j n (fun h => hne (by rw [h]))

theorem get?_set_ne : ∀ (cs : HChildren) (i j : Nat) (n : HNode), j ≠ i →
    (cs.set i n).get? j = cs.get? j
  | .nil, i, j, n, hne => get?_setNil_ne i j n hne
  | .consSome c t, 0, 0, n, hne => absurd rfl hne
  | .consSome c t, 0, j + 1, n, _ => by simp [HChildren.set, HChildren.get?]
  | .consSome c t, i + 1, 0, n, _ => by simp [HChildren.set, HChildren.get?]
  | .consSome c t, i + 1, j + 1, n, hne => by
    simp only [HChildren.set, HChildren.get?]
    exact get?_set_ne t i j n (fun h => hne (by rw [h]))
  | .consNone t, 0, 0, n, hne => absurd rfl hne
  | .consNone t, 0, j + 1, n, _ => by simp [HChildren.set, HChildren.get?]
  | .consNone t, i + 1, 0, n, _ => by simp [HChildren.set, HChildren.get?]
  | .consNone t, i + 1, j + 1, n, hne => by
    simp only [HChildren.set, HChildren.get?]
    exact get?_set_ne t i j n (fun h => hne (by rw [h]))

theorem wfC_setNil (i : Nat) (n : HNode) (hn : wfN n) :
    wfC (HChildren.nil.set i n) := by
  induction i with
  | zero => exact ⟨hn, trivial⟩
  | succ k ihk => exact ihk

theorem wfC_set : ∀ (cs : HChildren) (i : Nat) (n : HNode),
    wfC cs → wfN n → wfC (cs.set i n)
  | .nil, i, n, _, hn => wfC_setNil i n hn
  | .consSome c t, 0, n, hcs, hn => ⟨hn, hcs.2⟩
  | .consSome c t, k + 1, n, hcs, hn => ⟨hcs.1, wfC_set t k n hcs.2 hn⟩
  | .consNone t, 0, n, hcs, hn => ⟨hn, hcs⟩
  | .consNone t, k + 1, n, hcs, hn => wfC_set t k n hcs hn

end CountLemmas

lemma mem_of_getLast?_eq (l : List SplitSuggestion) (a : SplitSuggestion)
    (h : l.getLast? = some a) : a ∈ l := by
  have hne : l ≠ [] := by
    intro hnil; rw [hnil] at h; simp at h
  rw [List.getLast?_eq_getLast l hne] at h
  rw [← Option.some_injective _ h]
  exact List.getLast_mem hne

theorem buildChildren_props (depth : Nat) : ∀ (l : List Stats),
    countLeavesC (buildChildren depth l) = l.length ∧
    countSplitsC (buildChildren depth l) = 0 ∧
    wfC (buildChildren depth l) ∧
    (∀ j, l.length ≤ j → (buildChildren depth l).get? j = none)
  | [] => by
    refine ⟨rfl, rfl, trivial, ?_⟩
    intro j _
    rfl
  | s :: rest => by
    obtain ⟨h1, h2, h3, h4⟩ := buildChildren_props depth rest
    refine ⟨?_, ?_, ⟨trivial, h3⟩, ?_⟩
    · simp [buildChildren, countLeavesC, countLeavesN, h1, Nat.add_comm]
    · simp [buildChildren, countSplitsC, countSplitsN, h2]
    · intro j hj
      cases j with
      | zero => simp at hj
      | succ k =>
        have : rest.length ≤ k := by simpa using hj
        exact h4 k this

lemma mkDecision_counts (ld' : LeafData) (S : List SplitSuggestion)
    (ss : Bool) (r : AttemptRes) (hres : mkDecision ld' S ss = some r)
    (hS : ∀ s ∈ S, s.wfSugg) :
    (countLeavesN r.node : ℤ) = 1 + r.dAct + r.dInact ∧
    (countSplitsN r.node : ℤ) = r.dDec ∧ wfN r.node := by
  unfold mkDecision at hres
  cases ss with
  | false =>
    rw [if_neg Bool.false_ne_true] at hres
    obtain rfl : _ = r := Option.some.inj hres
    exact ⟨by simp [countLeavesN], by simp [countSplitsN], trivial⟩
  | true =>
    rw [if_pos rfl] at hres
    split at hres
    · cases hres
    · rename_i best hlast
      split at hres
      · obtain rfl : _ = r := Option.some.inj hres
        exact ⟨by simp [countLeavesN], by simp [countSplitsN], trivial⟩
      · rename_i t ht
        obtain rfl : _ = r := Option.some.inj hres
        obtain ⟨b1, b2, b3, b4⟩ := buildChildren_props ld'.depth best.resultingStats
        have hmem : best ∈ S := mem_of_getLast?_eq S best hlast
        have hwf := hS best hmem
        refine ⟨?_, ?_, ?_, b3⟩
        · simp only [countLeavesN, b1]
          omega
        · simp only [countSplitsN, b2]
          omega
        · cases t with
          | numericBinary a p => trivial
          | nominalBinary a p => trivial
          | nominalMultiway a seen =>
            intro j hj
            apply b4
            have hlen : best.resultingStats.length ≤ seen.length := by
              unfold SplitSuggestion.wfSugg at hwf
              rw [ht] at hwf
              exact hwf
            omega

lemma lsaReset_counts (n : HNode) (w : ℚ) :
    countLeavesN (lsaReset n w) = countLeavesN n ∧
    countSplitsN (lsaReset n w) = countSplitsN n ∧
    (wfN n → wfN (lsaReset n w)) := by
  cases n with
  | leaf ld => exact ⟨rfl, rfl, fun _ => trivial⟩
  | split sd cs => exact ⟨rfl, rfl, id⟩

lemma attemptToSplit_counts (cfg : Config) (ld : LeafData)
    (suggs : List SplitSuggestion) (hb : ℚ) (r : AttemptRes)
    (hres : attemptToSplit cfg ld suggs hb = some r)
    (hsugg : ∀ s ∈ suggs, s.wfSugg) :
    (countLeavesN r.node : ℤ) = 1 + r.dAct + r.dInact ∧
    (countSplitsN r.node : ℤ) = r.dDec ∧ wfN r.node := by
  have hSsort : ∀ s ∈ sortSuggs suggs, s.wfSugg := fun s hs =>
    hsugg s ((sortSuggs_perm suggs).mem_iff.mp hs)
  unfold attemptToSplit at hres
  by_cases hpure : distributionIsPure ld.stats
  · rw [if_pos hpure] at hres
    obtain rfl : _ = r := Option.some.inj hres
    exact ⟨by simp [countLeavesN], by simp [countSplitsN], trivial⟩
  · rw [if_neg hpure] at hres
    unfold attemptBody at hres
    by_cases hlen : (sortSuggs suggs).length < 2
    · rw [if_pos hlen] at hres
      exact mkDecision_counts _ _ _ _ hres hSsort
    · rw [if_neg hlen] at hres
      split at hres
      · rename_i best second hbest hsecond
        by_cases hrpa : cfg.removePoorAttrs
        · rw [if_pos hrpa] at hres
          cases hcp : collectPoor best hb (sortSuggs suggs) with
          | none => rw [hcp] at hres; cases hres
          | some poor =>
            rw [hcp] at hres
            exact mkDecision_counts _ _ _ _ hres hSsort
        · rw [if_neg hrpa] at hres
          exact mkDecision_counts _ _ _ _ hres hSsort
      · cases hres

lemma processLeaf_counts (cfg : Config) (st : StepInput) (ld : LeafData)
    (r : NodeRes) (hres : processLeaf cfg st ld = some r)
    (hsugg : ∀ s ∈ st.suggestions, s.wfSugg) :
    (countLeavesN r.node : ℤ) = 1 + r.dAct + r.dInact ∧
    (countSplitsN r.node : ℤ) = r.dDec ∧ wfN r.node := by
  simp only [processLeaf] at hres
  split at hres
  · split at hres
    · obtain rfl : _ = r := Option.some.inj hres
      exact ⟨by simp [countLeavesN], by simp [countSplitsN], trivial⟩
    · split at hres
      · obtain ⟨r0, hr0, rfl⟩ := Option.map_eq_some'.mp hres
        obtain ⟨h1, h2, h3⟩ :=
          attemptToSplit_counts cfg _ st.suggestions st.hb r0 hr0 hsugg
        obtain ⟨l1, l2, l3⟩ := lsaReset_counts r0.node
          (totalWeight (leafLearnOne ld st.y st.weight).stats)
        refine ⟨?_, ?_, l3 h3⟩
        · show (countLeavesN (lsaReset r0.node _) : ℤ) = _
          rw [l1]
          exact h1
        · show (countSplitsN (lsaReset r0.node _) : ℤ) = _
          rw [l2]
          exact h2
      · obtain rfl : _ = r := Option.some.inj hres
        exact ⟨by simp [countLeavesN], by simp [countSplitsN], trivial⟩
  · obtain rfl : _ = r := Option.some.inj hres
    exact ⟨by simp [countLeavesN], by simp [countSplitsN], trivial⟩

lemma idxOf?_lt_length (v : Nat) : ∀ (seen : List Nat) (i : Nat),
    idxOf? v seen = some i → i < seen.length := by
  intro seen
  induction seen with
  | nil => intro i h; cases h
  | cons a t ih =>
    intro i h
    unfold idxOf? at h
    split at h
    · obtain rfl : 0 = i := Option.some.inj h
      simp
    · obtain ⟨k, hk, rfl⟩ := Option.map_eq_some'.mp h
      have := ih k hk
      simp
      omega

lemma idxOf?_eq_none_iff (v : Nat) : ∀ (seen : List Nat),
    idxOf? v seen = none ↔ v ∉ seen := by
  intro seen
  induction seen with
  | nil => simp [idxOf?]
  | cons a t ih =>
    unfold idxOf?
    by_cases hav : a = v
    · subst hav
      simp
    · simp only [if_neg hav, Option.map_eq_none', ih, List.mem_cons]
      constructor
      · intro h hc
        rcases hc with rfl | hc
        · exact hav rfl
        · exact h hc
      · intro h hc
        exact h (Or.inr hc)

mutual
/-- Counter bookkeeping of the routing walk: the rebuilt subtree's leaf and
split counts move exactly by the reported deltas, and well-formedness is
preserved. -/
theorem learnNode_counts (cfg : Config) (st : StepInput)
    (hsugg : ∀ s ∈ st.suggestions, s.wfSugg) :
    ∀ (t : HNode) (r : NodeRes), learnNode cfg st t = some r → wfN t →
      (countLeavesN r.node : ℤ) = countLeavesN t + r.dAct + r.dInact ∧
      (countSplitsN r.node : ℤ) = countSplitsN t + r.dDec ∧ wfN r.node
  | .leaf ld, r, hres, _ => by
    have h := processLeaf_counts cfg st ld r hres hsugg
    simpa [countLeavesN, countSplitsN] using h
  | .split sd cs, r, hres, hwf => by
    simp only [learnNode] at hres
    split at hres
    · rename_i hroute
      cases htest : sd.test with
      | numericBinary a p =>
        rw [htest] at hroute; simp [SplitTest.route] at hroute
      | nominalBinary a p =>
        rw [htest] at hroute; simp [SplitTest.route] at hroute
      | nominalMultiway a seen =>
        rw [htest] at hres
        obtain rfl : _ = r := Option.some.inj hres
        have hwt : wfTest sd.test cs := hwf.1
        rw [htest] at hwt
        have hget : cs.get? seen.length = none := hwt seen.length (le_refl _)
        obtain ⟨c1, c2⟩ := counts_set_none cs seen.length
          (.leaf (leafLearnOne (freshLeaf (sd.depth + 1)) st.y st.weight)) hget
        refine ⟨?_, ?_, ?_⟩
        · show (countLeavesC (cs.set seen.length _) : ℤ) = countLeavesC cs + 1 + 0
          rw [c1]
          simp [countLeavesN]
        · show (1 + countSplitsC (cs.set seen.length _) : ℤ) =
            (1 + countSplitsC cs : ℤ) + 0
          rw [c2]
          simp [countSplitsN]
        · refine ⟨?_, wfC_set cs seen.length _ hwf.2 trivial⟩
          show wfTest (.nominalMultiway a (seen ++ [st.x a])) (cs.set seen.length _)
          intro j hj
          have hjlen : seen.length ≤ j := by
            simp only [List.length_append, List.length_cons,
              List.length_nil] at hj
            omega
          have hne : j ≠ seen.length := by
            simp only [List.length_append, List.length_cons,
              List.length_nil] at hj
            omega
          rw [get?_set_ne cs seen.length j _ hne]
          exact hwt j hjlen
    · rename_i idx hroute
      obtain ⟨r0, hr0, rfl⟩ := Option.map_eq_some'.mp hres
      obtain ⟨h1, h2, h3, h4⟩ :=
        learnChildAt_counts cfg st hsugg cs idx (sd.depth + 1) r0 hr0 hwf.2
      refine ⟨?_, ?_, ?_⟩
      · show (countLeavesC r0.1 : ℤ) = countLeavesC cs + r0.2.dAct + r0.2.dInact
        exact h1
      · show (1 + countSplitsC r0.1 : ℤ) = (1 + countSplitsC cs : ℤ) + r0.2.dDec
        push_cast
        push_cast at h2
        omega
      · refine ⟨?_, h3⟩
        show wfTest sd.test r0.1
        have hwt : wfTest sd.test cs := hwf.1
        cases htest : sd.test with
        | numericBinary a p => trivial
        | nominalBinary a p => trivial
        | nominalMultiway a seen =>
          rw [htest] at hwt hroute
          simp only [SplitTest.route] at hroute
          have hidx : idx < seen.length := idxOf?_lt_length _ seen idx hroute
          intro j hj
          have hne : j ≠ idx := by omega
          rw [h4 j hne]
          exact hwt j hj

/-- Counter bookkeeping of the walk into a child slot; slots other than the
visited one are untouched. -/
theorem learnChildAt_counts (cfg : Config) (st : StepInput)
    (hsugg : ∀ s ∈ st.suggestions, s.wfSugg) :
    ∀ (cs : HChildren) (i : Nat) (d : Nat) (r : HChildren × NodeRes),
      learnChildAt cfg st d cs i = some r → wfC cs →
      (countLeavesC r.1 : ℤ) = countLeavesC cs + r.2.dAct + r.2.dInact ∧
      (countSplitsC r.1 : ℤ) = countSplitsC cs + r.2.dDec ∧ wfC r.1 ∧
      (∀ j, j ≠ i → r.1.get? j = cs.get? j)
  | .nil, i, d, r, hres, _ => by
    simp only [learnChildAt] at hres
    obtain ⟨r0, hr0, rfl⟩ := Option.map_eq_some'.mp hres
    obtain ⟨p1, p2, p3⟩ := processLeaf_counts cfg st (freshLeaf d) r0 hr0 hsugg
    obtain ⟨n1, n2⟩ := counts_set_nil i r0.node
    refine ⟨?_, ?_, ?_, ?_⟩
    · show (countLeavesC (HChildren.nil.set i r0.node) : ℤ) =
        countLeavesC HChildren.nil + (r0.dAct + 1) + r0.dInact
      rw [n1]
      simp only [countLeavesC]
      push_cast
      omega
    · show (countSplitsC (HChildren.nil.set i r0.node) : ℤ) =
        countSplitsC HChildren.nil + r0.dDec
      rw [n2]
      simp only [countSplitsC]
      push_cast
      omega
    · exact wfC_setNil i r0.node p3
    · intro j hj
      exact get?_setNil_ne i j r0.node hj
  | .consSome c t, 0, d, r, hres, hwf => by
    simp only [learnChildAt] at hres
    obtain ⟨r0, hr0, rfl⟩ := Option.map_eq_some'.mp hres
    obtain ⟨h1, h2, h3⟩ := learnNode_counts cfg st hsugg c r0 hr0 hwf.1
    refine ⟨?_, ?_, ⟨h3, hwf.2⟩, ?_⟩
    · show (countLeavesN r0.node + countLeavesC t : ℤ) =
        (countLeavesN c + countLeavesC t : ℤ) + r0.dAct + r0.dInact
      push_cast
      push_cast at h1
      omega
    · show (countSplitsN r0.node + countSplitsC t : ℤ) =
        (countSplitsN c + countSplitsC t : ℤ) + r0.dDec
      push_cast
      push_cast at h2
      omega
    · intro j hj
      cases j with
      | zero => exact absurd rfl hj
      | succ k => rfl
  | .consNone t, 0, d, r, hres, hwf => by
    simp only [learnChildAt] at hres
    obtain ⟨r0, hr0, rfl⟩ := Option.map_eq_some'.mp hres
    obtain ⟨p1, p2, p3⟩ := processLeaf_counts cfg st (freshLeaf d) r0 hr0 hsugg
    refine ⟨?_, ?_, ⟨p3, hwf⟩, ?_⟩
    · show (countLeavesN r0.node + countLeavesC t : ℤ) =
        (countLeavesC t : ℤ) + (r0.dAct + 1) + r0.dInact
      push_cast
      push_cast at p1
      omega
    · show (countSplitsN r0.node + countSplitsC t : ℤ) =
        (countSplitsC t : ℤ) + r0.dDec
      push_cast
      push_cast at p2
      omega
    · intro j hj
      cases j with
      | zero => exact absurd rfl hj
      | succ k => rfl
  | .consSome c t, i + 1, d, r, hres, hwf => by
    simp only [learnChildAt] at hres
    obtain ⟨r0, hr0, rfl⟩ := Option.map_eq_some'.mp hres
    obtain ⟨h1, h2, h3, h4⟩ := learnChildAt_counts cfg st hsugg t i d r0 hr0 hwf.2
    refine ⟨?_, ?_, ⟨hwf.1, h3⟩, ?_⟩
    · show (countLeavesN c + countLeavesC r0.1 : ℤ) =
        (countLeavesN c + countLeavesC t : ℤ) + r0.2.dAct + r0.2.dInact
      push_cast
      push_cast at h1
      omega
    · show (countSplitsN c + countSplitsC r0.1 : ℤ) =
        (countSplitsN c + countSplitsC t : ℤ) + r0.2.dDec
      push_cast
      push_cast at h2
      omega
    · intro j hj
      cases j with
      | zero => rfl
      | succ k =>
        have : k ≠ i := fun h => hj (by rw [h])
        exact h4 k this
  | .consNone t, i + 1, d, r, hres, hwf => by
    simp only [learnChildAt] at hres
    obtain ⟨r0, hr0, rfl⟩ := Option.map_eq_some'.mp hres
    obtain ⟨h1, h2, h3, h4⟩ := learnChildAt_counts cfg st hsugg t i d r0 hr0 hwf
    refine ⟨?_, ?_, h3, ?_⟩
    · show (countLeavesC r0.1 : ℤ) =
        (countLeavesC t : ℤ) + r0.2.dAct + r0.2.dInact
      exact h1
    · show (countSplitsC r0.1 : ℤ) = (countSplitsC t : ℤ) + r0.2.dDec
      exact h2
    · intro j hj
      cases j with
      | zero => rfl
      | succ k =>
        have : k ≠ i := fun h => hj (by rw [h])
        exact h4 k this
end

/-- One completed `learn_one` call preserves the counter invariant,
well-formedness and the fresh-counter condition. -/
lemma learnOne_preserves (m : Model) (st : StepInput)
    (m' : Model) (ev : List Event) (est : Bool)
    (hsugg : ∀ s ∈ st.suggestions, s.wfSugg)
    (h : learnOne m st = some (m', ev, est))
    (hinv : counterInvariant m) (hwf : wfO m.root)
    (hfz : m.root = none → m.nInactiveLeaves = 0) :
    counterInvariant m' ∧ wfO m'.root ∧
    (m'.root = none → m'.nInactiveLeaves = 0) := by
  simp only [learnOne] at h
  obtain ⟨r, hr, heq⟩ := Option.map_eq_some'.mp h
  simp only [Prod.mk.injEq] at heq
  obtain ⟨hm, -, -⟩ := heq
  obtain ⟨hinv1, hinv2⟩ := hinv
  cases hroot : m.root with
  | none =>
    rw [hroot] at hr hm hwf hinv1 hinv2
    obtain ⟨h1, h2, h3⟩ := learnNode_counts m.cfg st hsugg _ r hr trivial
    have hz : m.nInactiveLeaves = 0 := hfz hroot
    simp only [countLeavesO, countLeavesN, countSplitsO, countSplitsN,
      freshLeaf] at h1 h2 hinv1 hinv2
    rw [← hm]
    refine ⟨⟨?_, ?_⟩, h3, ?_⟩
    · show 1 + r.dAct + (m.nInactiveLeaves + r.dInact) = (countLeavesO (some r.node) : ℤ)
      simp only [countLeavesO]
      rw [hz]
      omega
    · show m.nDecisionNodes + r.dDec = (countSplitsO (some r.node) : ℤ)
      simp only [countSplitsO]
      omega
    · intro hc
      cases hc
  | some t =>
    rw [hroot] at hr hm hwf hinv1 hinv2
    obtain ⟨h1, h2, h3⟩ := learnNode_counts m.cfg st hsugg t r hr hwf
    rw [← hm]
    refine ⟨⟨?_, ?_⟩, h3, ?_⟩
    · show m.nActiveLeaves + r.dAct + (m.nInactiveLeaves + r.dInact) =
        (countLeavesO (some r.node) : ℤ)
      simp only [countLeavesO] at hinv1 ⊢
      omega
    · show m.nDecisionNodes + r.dDec = (countSplitsO (some r.node) : ℤ)
      simp only [countSplitsO] at hinv2 ⊢
      omega
    · intro hc
      cases hc

lemma learnSeq_preserves : ∀ (steps : List StepInput) (m m' : Model),
    (∀ st ∈ steps, ∀ s ∈ st.suggestions, s.wfSugg) →
    learnSeq m steps = some m' →
    counterInvariant m → wfO m.root →
    (m.root = none → m.nInactiveLeaves = 0) →
    counterInvariant m'
  | [], m, m', _, h, hinv, _, _ => by
    obtain rfl : m = m' := Option.some.inj h
    exact hinv
  | st :: rest, m, m', hsugg, h, hinv, hwf, hfz => by
    simp only [learnSeq] at h
    split at h
    · cases h
    · rename_i m1 ev est hlearn
      obtain ⟨hinv1, hwf1, hfz1⟩ := learnOne_preserves m st m1 ev est
        (hsugg st (List.mem_cons_self st rest)) hlearn hinv hwf hfz
      exact learnSeq_preserves rest m1 m'
        (fun s hs => hsugg s (List.mem_cons_of_mem st hs)) h hinv1 hwf1 hfz1

/-- C4: after every completed `learn_one` call on a stream of examples fed
to a fresh model — with external split suggestions respecting the
collaborator contract that a multi-way test has at most one branch per seen
value — the active plus inactive leaf counters equal the number of leaf
nodes in the tree, and the decision-node counter equals the number of split
nodes. -/
theorem c4_counter_invariant (cfg : Config) (steps : List StepInput)
    (m' : Model)
    (hsugg : ∀ st ∈ steps, ∀ s ∈ st.suggestions, s.wfSugg)
    (h : learnSeq (initModel cfg) steps = some m') :
    m'.nActiveLeaves + m'.nInactiveLeaves = (countLeavesO m'.root : ℤ) ∧
    m'.nDecisionNodes = (countSplitsO m'.root : ℤ) :=
  learnSeq_preserves steps (initModel cfg) m' hsugg h
    ⟨by simp [initModel, countLeavesO], by simp [initModel, countSplitsO]⟩
    trivial (fun _ => rfl)

lemma sampleSuggs_wf :
    ∀ st ∈ [stepSample, stepSample2], ∀ s ∈ st.suggestions, s.wfSugg := by
  intro st hst s hs
  rcases List.mem_cons.mp hst with rfl | hst
  · simp [stepSample] at hs
  · rcases List.mem_cons.mp hst with rfl | hst
    · have hs2 : s = suggA ∨ s = suggB := by
        simpa [stepSample2] using hs
      rcases hs2 with rfl | rfl <;> trivial
    · cases hst

/-- Witness for C4: two examples on a fresh model, the second executing a
real split (two fresh child leaves, one new decision node). -/
theorem c4_counter_invariant_witness :
    (∀ st ∈ [stepSample, stepSample2], ∀ s ∈ st.suggestions, s.wfSugg) ∧
    (((learnSeq (initModel cfgSample) [stepSample, stepSample2]).getD
        (initModel cfgSample)).nActiveLeaves +
      ((learnSeq (initModel cfgSample) [stepSample, stepSample2]).getD
        (initModel cfgSample)).nInactiveLeaves =
      (countLeavesO ((learnSeq (initModel cfgSample)
        [stepSample, stepSample2]).getD (initModel cfgSample)).root : ℤ) ∧
    ((learnSeq (initModel cfgSample) [stepSample, stepSample2]).getD
        (initModel cfgSample)).nDecisionNodes =
      (countSplitsO ((learnSeq (initModel cfgSample)
        [stepSample, stepSample2]).getD (initModel cfgSample)).root : ℤ)) :=
  ⟨sampleSuggs_wf,
   c4_counter_invariant cfgSample [stepSample, stepSample2] _ sampleSuggs_wf
     (by norm_num [learnSeq, learnOne, learnNode, processLeaf, attemptToSplit,
       attemptBody, mkDecision, sortSuggs, insertByMerit, collectPoor,
       buildChildren, lsaReset, distributionIsPure, leafLearnOne, statsAdd,
       totalWeight, freshLeaf, insertClass, ratMod, deactivateLeaf,
       initModel, cfgSample, stepSample, stepSample2, suggA, suggB])⟩

mutual
/-- Routing correspondence: when routing reaches an existing leaf, the
training walk is exactly leaf processing re-installed at that position. -/
theorem learnNode_found (cfg : Config) (st : StepInput) :
    ∀ (t : HNode) (ld : LeafData), findLeaf st.x t = .foundLeaf ld →
      (processLeaf cfg st ld = none → learnNode cfg st t = none) ∧
      (∀ pr : NodeRes, processLeaf cfg st ld = some pr →
        ∃ t', learnNode cfg st t = some
            { node := t', dAct := pr.dAct, dInact := pr.dInact,
              dDec := pr.dDec, events := pr.events } ∧
          (∀ ld', pr.node = .leaf ld' → findLeaf st.x t' = .foundLeaf ld'))
  | .leaf ld0, ld, hfound => by
    have hld : ld0 = ld := by
      simpa [findLeaf] using hfound
    subst hld
    constructor
    · intro hn
      simpa [learnNode] using hn
    · intro pr hpr
      refine ⟨pr.node, ?_, ?_⟩
      · simp [learnNode, hpr]
      · intro ld' hnode
        rw [hnode]
        rfl
  | .split sd cs, ld, hfound => by
    simp only [findLeaf] at hfound
    split at hfound
    · cases hfound
    · rename_i idx hroute
      have hrec := learnChildAt_found cfg st cs idx (sd.depth + 1) ld hfound
      constructor
      · intro hn
        simp only [learnNode, hroute]
        rw [hrec.1 hn]
        rfl
      · intro pr hpr
        obtain ⟨cs', nr, hca, hda, hdi, hdd, hev, hfl⟩ := hrec.2 pr hpr
        refine ⟨.split sd cs', ?_, ?_⟩
        · simp only [learnNode, hroute, hca, Option.map_some']
          rw [hda, hdi, hdd, hev]
        · intro ld' hnode
          simp only [findLeaf, hroute]
          exact hfl ld' hnode

/-- Routing correspondence below a child slot. -/
theorem learnChildAt_found (cfg : Config) (st : StepInput) :
    ∀ (cs : HChildren) (i : Nat) (d : Nat) (ld : LeafData),
      findLeafC st.x cs i = .foundLeaf ld →
      (processLeaf cfg st ld = none → learnChildAt cfg st d cs i = none) ∧
      (∀ pr : NodeRes, processLeaf cfg st ld = some pr →
        ∃ cs' nr, learnChildAt cfg st d cs i = some (cs', nr) ∧
          nr.dAct = pr.dAct ∧ nr.dInact = pr.dInact ∧ nr.dDec = pr.dDec ∧
          nr.events = pr.events ∧
          (∀ ld', pr.node = .leaf ld' → findLeafC st.x cs' i = .foundLeaf ld'))
  | .nil, i, d, ld, hfound => by
    simp [findLeafC] at hfound
  | .consSome c t, 0, d, ld, hfound => by
    have hfc : findLeaf st.x c = .foundLeaf ld := hfound
    have hrec := learnNode_found cfg st c ld hfc
    constructor
    · intro hn
      simp only [learnChildAt]
      rw [hrec.1 hn]
      rfl
    · intro pr hpr
      obtain ⟨t', hln, hfl⟩ := hrec.2 pr hpr
      refine ⟨.consSome t' t,
        { node := t', dAct := pr.dAct, dInact := pr.dInact, dDec := pr.dDec,
          events := pr.events }, ?_, rfl, rfl, rfl, rfl, ?_⟩
      · simp only [learnChildAt, hln, Option.map_some']
      · intro ld' hnode
        exact hfl ld' hnode
  | .consNone t, 0, d, ld, hfound => by
    simp [findLeafC] at hfound
  | .consSome c t, i + 1, d, ld, hfound => by
    have hfc : findLeafC st.x t i = .foundLeaf ld := hfound
    have hrec := learnChildAt_found cfg st t i d ld hfc
    constructor
    · intro hn
      simp only [learnChildAt]
      rw [hrec.1 hn]
      rfl
    · intro pr hpr
      obtain ⟨cs', nr, hca, hda, hdi, hdd, hev, hfl⟩ := hrec.2 pr hpr
      refine ⟨.consSome c cs', nr, ?_, hda, hdi, hdd, hev, ?_⟩
      · simp only [learnChildAt, hca, Option.map_some']
      · intro ld' hnode
        exact hfl ld' hnode
  | .consNone t, i + 1, d, ld, hfound => by
    have hfc : findLeafC st.x t i = .foundLeaf ld := hfound
    have hrec := learnChildAt_found cfg st t i d ld hfc
    constructor
    · intro hn
      simp only [learnChildAt]
      rw [hrec.1 hn]
      rfl
    · intro pr hpr
      obtain ⟨cs', nr, hca, hda, hdi, hdd, hev, hfl⟩ := hrec.2 pr hpr
      refine ⟨.consNone cs', nr, ?_, hda, hdi, hdd, hev, ?_⟩
      · simp only [learnChildAt, hca, Option.map_some']
      · intro ld' hnode
        exact hfl ld' hnode
end

lemma processLeaf_inactive (cfg : Config) (st : StepInput) (ld : LeafData)
    (h : ld.isActive = false) :
    processLeaf cfg st ld =
      some { node := .leaf (leafLearnOne ld st.y st.weight), dAct := 0,
             dInact := 0, dDec := 0, events := [] } := by
  simp only [processLeaf]
  rw [if_neg]
  intro hc
  rw [show (leafLearnOne ld st.y st.weight).isActive = ld.isActive from rfl, h]
    at hc
  exact Bool.false_ne_true hc.2

lemma processLeaf_cap (cfg : Config) (st : StepInput) (ld : LeafData)
    (hg : cfg.growthAllowed = true) (hact : ld.isActive = true)
    (hdep : cfg.maxDepth ≤ (ld.depth : WithTop Nat)) :
    processLeaf cfg st ld =
      some { node := .leaf (deactivateLeaf (leafLearnOne ld st.y st.weight)),
             dAct := -1, dInact := 1, dDec := 0,
             events := [Event.deactivateCap] } := by
  simp only [processLeaf]
  rw [if_pos ⟨hg, show (leafLearnOne ld st.y st.weight).isActive = true from hact⟩]
  rw [if_pos (show cfg.maxDepth ≤ ((leafLearnOne ld st.y st.weight).depth : WithTop Nat) from hdep)]

/-- C5: a leaf reached by `learn_one` that is already inactive is trained
but triggers no split attempt, no deactivation and no counter change; an
active leaf at or beyond the depth cap (growth enabled) is deactivated
exactly once — active counter down one, inactive counter up one, no split
attempt — and the leaf found at that position afterwards is inactive, so no
later call ever evaluates it for splitting. -/
theorem c5_depth_cap_deactivation (m : Model) (st : StepInput) (m' : Model)
    (ev : List Event) (est : Bool) (t : HNode) (ld : LeafData)
    (hroot : m.root = some t) (hfound : findLeaf st.x t = .foundLeaf ld)
    (hlearn : learnOne m st = some (m', ev, est)) :
    (ld.isActive = false →
      ev = [] ∧ m'.nActiveLeaves = m.nActiveLeaves ∧
      m'.nInactiveLeaves = m.nInactiveLeaves ∧
      m'.nDecisionNodes = m.nDecisionNodes) ∧
    (m.cfg.growthAllowed = true → ld.isActive = true →
      m.cfg.maxDepth ≤ (ld.depth : WithTop Nat) →
      ev = [Event.deactivateCap] ∧
      m'.nActiveLeaves = m.nActiveLeaves - 1 ∧
      m'.nInactiveLeaves = m.nInactiveLeaves + 1 ∧
      m'.nDecisionNodes = m.nDecisionNodes ∧
      (∃ t' ld', m'.root = some t' ∧ findLeaf st.x t' = .foundLeaf ld' ∧
        ld'.isActive = false)) := by
  simp only [learnOne] at hlearn
  rw [hroot] at hlearn
  obtain ⟨r, hr, heq⟩ := Option.map_eq_some'.mp hlearn
  simp only [Prod.mk.injEq] at heq
  obtain ⟨hm, hev, -⟩ := heq
  constructor
  · intro hinact
    have hpl := processLeaf_inactive m.cfg st ld hinact
    obtain ⟨t', hln, -⟩ := (learnNode_found m.cfg st t ld hfound).2 _ hpl
    rw [hln] at hr
    obtain rfl : _ = r := Option.some.inj hr
    subst hm
    refine ⟨hev.symm, ?_, ?_, ?_⟩
    · show m.nActiveLeaves + (0 : ℤ) = m.nActiveLeaves
      omega
    · show m.nInactiveLeaves + (0 : ℤ) = m.nInactiveLeaves
      omega
    · show m.nDecisionNodes + (0 : ℤ) = m.nDecisionNodes
      omega
  · intro hg hact hdep
    have hpl := processLeaf_cap m.cfg st ld hg hact hdep
    obtain ⟨t', hln, hfl⟩ := (learnNode_found m.cfg st t ld hfound).2 _ hpl
    rw [hln] at hr
    obtain rfl : _ = r := Option.some.inj hr
    subst hm
    refine ⟨hev.symm, ?_, ?_, ?_, ?_⟩
    · show m.nActiveLeaves + (-1 : ℤ) = m.nActiveLeaves - 1
      omega
    · show m.nInactiveLeaves + (1 : ℤ) = m.nInactiveLeaves + 1
      omega
    · show m.nDecisionNodes + (0 : ℤ) = m.nDecisionNodes
      omega
    · exact ⟨t', deactivateLeaf (leafLearnOne ld st.y st.weight), rfl,
        hfl _ rfl, rfl⟩

/-- Witness for C5: a depth-capped active leaf is deactivated exactly once,
with the counters moved and no split attempt. -/
theorem c5_depth_cap_deactivation_witness :
    mCap.cfg.growthAllowed = true ∧ ldSample.isActive = true ∧
    mCap.cfg.maxDepth ≤ (ldSample.depth : WithTop Nat) ∧
    (((learnOne mCap stepSample).getD learnOneDefault).2.1 =
        [Event.deactivateCap] ∧
      ((learnOne mCap stepSample).getD learnOneDefault).1.nActiveLeaves =
        mCap.nActiveLeaves - 1 ∧
      ((learnOne mCap stepSample).getD learnOneDefault).1.nInactiveLeaves =
        mCap.nInactiveLeaves + 1 ∧
      ((learnOne mCap stepSample).getD learnOneDefault).1.nDecisionNodes =
        mCap.nDecisionNodes ∧
      (∃ t' ld',
        ((learnOne mCap stepSample).getD learnOneDefault).1.root = some t' ∧
        findLeaf stepSample.x t' = .foundLeaf ld' ∧ ld'.isActive = false)) :=
  ⟨rfl, rfl, by decide,
   (c5_depth_cap_deactivation mCap stepSample
     ((learnOne mCap stepSample).getD learnOneDefault).1
     ((learnOne mCap stepSample).getD learnOneDefault).2.1
     ((learnOne mCap stepSample).getD learnOneDefault).2.2
     (.leaf ldSample) ldSample rfl rfl
     (by norm_num [learnOne, learnNode, processLeaf, leafLearnOne, statsAdd,
       totalWeight, freshLeaf, insertClass, ratMod, deactivateLeaf, mCap,
       cfgCap, cfgSample, ldSample, stepSample, learnOneDefault])).2
     rfl rfl (by decide)⟩

mutual
/-- Case (b) correspondence: when routing hits a multi-way split node with
no branch for the example's value, the training walk succeeds, reports
exactly one new active leaf and one new-branch event, and relates the old
and new trees by `BranchExtended`. -/
theorem learnNode_unmatched (cfg : Config) (st : StepInput) :
    ∀ (t : HNode), findLeaf st.x t = .unmatched →
      ∃ t' bid, learnNode cfg st t = some
          { node := t', dAct := 1, dInact := 0, dDec := 0,
            events := [.newBranch bid] } ∧
        BranchExtended st.x st.y st.weight t t'
  | .leaf ld, hfound => by simp [findLeaf] at hfound
  | .split sd cs, hfound => by
    obtain ⟨test, stats, depth⟩ := sd
    simp only [findLeaf] at hfound
    split at hfound
    · rename_i hroute
      cases test with
      | numericBinary a p => simp [SplitTest.route] at hroute
      | nominalBinary a p => simp [SplitTest.route] at hroute
      | nominalMultiway a seen =>
        simp only [SplitTest.route] at hroute
        have hnotin : st.x a ∉ seen := (idxOf?_eq_none_iff _ _).mp hroute
        refine ⟨.split ⟨.nominalMultiway a (seen ++ [st.x a]), stats, depth⟩
            (cs.set seen.length
              (.leaf (leafLearnOne (freshLeaf (depth + 1)) st.y st.weight))),
          seen.length, ?_, ?_⟩
        · have hroute' :
            (SplitTest.nominalMultiway a seen).route st.x = none := by
            simpa [SplitTest.route] using hroute
          simp only [learnNode, hroute']
          rfl
        · exact .here a seen stats depth cs hnotin
    · rename_i idx hroute
      obtain ⟨cs', nr, bid, c, c', hca, hda, hdi, hdd, hev, hget, hcs', hbe⟩ :=
        learnChildAt_unmatched cfg st cs idx (depth + 1) hfound
      refine ⟨.split ⟨test, stats, depth⟩ cs', bid, ?_, ?_⟩
      · simp only [learnNode, hroute, hca, Option.map_some']
        rw [hda, hdi, hdd, hev]
      · rw [hcs']
        exact .there ⟨test, stats, depth⟩ cs idx c c' hroute hget hbe

/-- Case (b) correspondence below a child slot. -/
theorem learnChildAt_unmatched (cfg : Config) (st : StepInput) :
    ∀ (cs : HChildren) (i : Nat) (d : Nat),
      findLeafC st.x cs i = .unmatched →
      ∃ cs' nr bid c c', learnChildAt cfg st d cs i = some (cs', nr) ∧
        nr.dAct = 1 ∧ nr.dInact = 0 ∧ nr.dDec = 0 ∧
        nr.events = [.newBranch bid] ∧
        cs.get? i = some c ∧ cs' = cs.set i c' ∧
        BranchExtended st.x st.y st.weight c c'
  | .nil, i, d, hfound => by simp [findLeafC] at hfound
  | .consSome c t, 0, d, hfound => by
    have hfc : findLeaf st.x c = .unmatched := hfound
    obtain ⟨c', bid, hln, hbe⟩ := learnNode_unmatched cfg st c hfc
    refine ⟨.consSome c' t,
      { node := c', dAct := 1, dInact := 0, dDec := 0,
        events := [.newBranch bid] }, bid, c, c', ?_, rfl, rfl, rfl, rfl,
      rfl, rfl, hbe⟩
    simp only [learnChildAt, hln, Option.map_some']
  | .consNone t, 0, d, hfound => by simp [findLeafC] at hfound
  | .consSome c t, i + 1, d, hfound => by
    have hfc : findLeafC st.x t i = .unmatched := hfound
    obtain ⟨cs', nr, bid, c0, c0', hca, hda, hdi, hdd, hev, hget, hcs', hbe⟩ :=
      learnChildAt_unmatched cfg st t i d hfc
    refine ⟨.consSome c cs', nr, bid, c0, c0', ?_, hda, hdi, hdd, hev,
      hget, ?_, hbe⟩
    · simp only [learnChildAt, hca, Option.map_some']
    · rw [hcs']
      rfl
  | .consNone t, i + 1, d, hfound => by
    have hfc : findLeafC st.x t i = .unmatched := hfound
    obtain ⟨cs', nr, bid, c0, c0', hca, hda, hdi, hdd, hev, hget, hcs', hbe⟩ :=
      learnChildAt_unmatched cfg st t i d hfc
    refine ⟨.consNone cs', nr, bid, c0, c0', ?_, hda, hdi, hdd, hev,
      hget, ?_, hbe⟩
    · simp only [learnChildAt, hca, Option.map_some']
    · rw [hcs']
      rfl
end

/-- C6: an example whose categorical value has no branch at the multi-way
split node it is routed to makes `learn_one` succeed, append exactly one
branch keyed by that value with exactly one fresh active leaf trained on
this example alone (active counter up by one, other counters unchanged),
as captured by the `BranchExtended` relation. -/
theorem c6_new_branch_on_unseen_value (m : Model) (st : StepInput)
    (t : HNode) (hroot : m.root = some t)
    (hfound : findLeaf st.x t = .unmatched) :
    ∃ m' ev est bid, learnOne m st = some (m', ev, est) ∧
      ev = [Event.newBranch bid] ∧
      m'.nActiveLeaves = m.nActiveLeaves + 1 ∧
      m'.nInactiveLeaves = m.nInactiveLeaves ∧
      m'.nDecisionNodes = m.nDecisionNodes ∧
      ∃ t', m'.root = some t' ∧
        BranchExtended st.x st.y st.weight t t' := by
  obtain ⟨t', bid, hln, hbe⟩ := learnNode_unmatched m.cfg st t hfound
  have hlearn : learnOne m st = some
      ({ cfg := m.cfg, root := some t',
         nActiveLeaves := m.nActiveLeaves + 1,
         nInactiveLeaves := m.nInactiveLeaves + 0,
         nDecisionNodes := m.nDecisionNodes + 0,
         weightSeen := m.weightSeen + st.weight,
         classes := insertClass m.classes st.y },
       [Event.newBranch bid],
       decide (ratMod (m.weightSeen + st.weight)
         (m.cfg.memoryEstimatePeriod : ℚ) = 0)) := by
    simp only [learnOne, hroot, hln, Option.map_some']
  refine ⟨_, _, _, bid, hlearn, rfl, rfl, ?_, ?_, t', rfl, hbe⟩
  · show m.nInactiveLeaves + 0 = m.nInactiveLeaves
    omega
  · show m.nDecisionNodes + 0 = m.nDecisionNodes
    omega

/-- Witness for C6 at the concrete multi-way split with an unseen value. -/
theorem c6_new_branch_on_unseen_value_witness :
    ∃ m' ev est bid, learnOne mMulti stepNew = some (m', ev, est) ∧
      ev = [Event.newBranch bid] ∧
      m'.nActiveLeaves = mMulti.nActiveLeaves + 1 ∧
      m'.nInactiveLeaves = mMulti.nInactiveLeaves ∧
      m'.nDecisionNodes = mMulti.nDecisionNodes ∧
      ∃ t', m'.root = some t' ∧
        BranchExtended stepNew.x stepNew.y stepNew.weight
          (.split sdMulti (.consSome (.leaf ldOne) .nil)) t' :=
  c6_new_branch_on_unseen_value mMulti stepNew
    (.split sdMulti (.consSome (.leaf ldOne) .nil)) rfl rfl
